import Mathlib

/-!
# Verification of the ply2lcc encoder core

Shallow embedding of the ply2lcc repository (PLY → LCC converter for 3D
Gaussian splats) and proofs about it.  Machine floats are modelled with
exact rational arithmetic (`ℚ`); the transcendental library calls that the
source makes (`std::exp`, the sigmoid, `std::sqrt`) are handled as follows:

* `std::exp` and the sigmoid only produce *values* that flow into
  quantizers; the embedded encoders take the map as an explicit function
  parameter (`expF`, `sigmoidF`), and every theorem below is independent of
  that parameter.
* `std::sqrt` appears only in the rotation packer, where each quantity to
  be quantized has the exact form `1/2 + a·√T` with `a T : ℚ`, `T ≥ 0`.
  Comparisons of such numbers with rationals are decided exactly by
  squaring (`leSqrtMul`), which makes the whole rotation packer a
  computable function on `ℚ` inputs while keeping real-number semantics.

Byte buffers are modelled as lists of typed scalars (`Scalar`): a float32
slot, a uint32 slot or a uint16 slot, each carrying its byte width, so
that sizes and all integer-valued words are bit-exact while float bit
patterns (which no claim depends on) stay abstract.
-/

namespace Ply2Lcc

/-! ## Shared math helpers (`types.hpp`) -/

/-- `clamp` from `types.hpp`: `x < lo ? lo : (x > hi ? hi : x)`. -/
def clamp (x lo hi : ℚ) : ℚ := if x < lo then lo else if hi < x then hi else x

/-- Floor of a rational, computably (`⌊q⌋ = q.num / q.den` for `ℚ`). -/
def ratFloor (q : ℚ) : ℤ := q.num / q.den

/-- `static_cast<uintN_t>(v)` for a nonnegative real value `v`: truncation
toward zero, which for `v ≥ 0` is the floor, returned as a natural. -/
def toUIntTrunc (q : ℚ) : ℕ := (ratFloor q).toNat

/-- `static_cast<int>(v)`: truncation toward zero (used by the collision
partitioner, which casts without `std::floor`). -/
def truncToInt (q : ℚ) : ℤ := if q < 0 then -ratFloor (-q) else ratFloor q

/-- Largest finite `float` (`std::numeric_limits<float>::max()`), the
initial value of the aggregated attribute ranges. -/
def FLT_MAX : ℚ := 340282346638528859811704183484516925440

/-! ## Color / scale / SH quantizers (`compression.cpp`) -/

/-- The SH DC constant used by the color packer (value of the float
literal in `compression.cpp`). -/
def SH_C0 : ℚ := 0.28209479177387814

/-- The `to_rgb` lambda from `encode_color`: `0.5 + SH_C0 * dc`, clamped
to `[0,1]`, then `* 255 + 0.5` truncated to a byte. -/
def to_rgb (dc : ℚ) : ℕ := toUIntTrunc (clamp (1/2 + SH_C0 * dc) 0 1 * 255 + 1/2)

/-- `encode_color` from `compression.cpp`.  `sigmoidF` stands for the
real-valued sigmoid applied to the logit opacity. -/
def encode_color (sigmoidF : ℚ → ℚ) (f_dc : Fin 3 → ℚ) (opacity : ℚ) : ℕ :=
  let r := to_rgb (f_dc 0)
  let g := to_rgb (f_dc 1)
  let b := to_rgb (f_dc 2)
  let a := toUIntTrunc (clamp (sigmoidF opacity) 0 1 * 255 + 1/2)
  (a <<< 24) ||| (b <<< 16) ||| (g <<< 8) ||| r

/-- One component of `encode_scale` from `compression.cpp`.  `expF`
stands for `std::exp` (only its value at `log_scale i` is used). -/
def encode_scale (expF : ℚ → ℚ) (log_scale scale_min scale_max : Fin 3 → ℚ)
    (i : Fin 3) : ℕ :=
  let linear := expF (log_scale i)
  let range := scale_max i - scale_min i
  let normalized := if 0 < range then (linear - scale_min i) / range else 0
  toUIntTrunc (clamp normalized 0 1 * 65535 + 1/2)

/-- The `normalize` lambda of `encode_sh_triplet`: `0.5` on a degenerate
range, otherwise `clamp ((v - sh_min)/range, 0, 1)`. -/
def sh_normalize (sh_min range v : ℚ) : ℚ :=
  if range ≤ 0 then 1/2 else clamp ((v - sh_min) / range) 0 1

/-- `encode_sh_triplet` from `compression.cpp`: 11/10/11-bit packing of
one SH band. -/
def encode_sh_triplet (r g b sh_min sh_max : ℚ) : ℕ :=
  let range := sh_max - sh_min
  let r_enc := toUIntTrunc (sh_normalize sh_min range r * 2047 + 1/2)
  let g_enc := toUIntTrunc (sh_normalize sh_min range g * 1023 + 1/2)
  let b_enc := toUIntTrunc (sh_normalize sh_min range b * 2047 + 1/2)
  r_enc ||| (g_enc <<< 11) ||| (b_enc <<< 21)

/-- `encode_sh_coefficients` from `compression.cpp`: word `i` of the
64-byte SH record.  The source reads `r_coeffs = f_rest`,
`g_coeffs = f_rest + 15`, `b_coeffs = f_rest + 30` and zeroes word 15. -/
def encode_sh_coefficients (f_rest : ℕ → ℚ) (sh_min sh_max : ℚ) (i : ℕ) : ℕ :=
  if i < 15 then
    encode_sh_triplet (f_rest i) (f_rest (15 + i)) (f_rest (30 + i)) sh_min sh_max
  else 0

/-! ## Rotation packer (`compression.cpp`, `encode_rotation`) -/

/-- Decide `b ≤ a·√T` for rationals with `T ≥ 0`, by sign analysis and
squaring.  This is an exact real-number comparison. -/
def leSqrtMul (b a T : ℚ) : Bool :=
  if 0 ≤ a then (if b ≤ 0 then true else b ^ 2 ≤ a ^ 2 * T)
  else (if 0 < b then false else a ^ 2 * T ≤ b ^ 2)

/-- The `encode_component` lambda of `encode_rotation`:
`⌊clamp ((v' + 1/√2) / √2, 0, 1) * 1023 + 1/2⌋`, where `v' = v/√S` is the
normalized component when `S > 0` (with `S` the squared quaternion length)
and `v' = v` when the normalization was skipped (`S = 0`).

Since `(v/√S + 1/√2)/√2 = 1/2 + (v/(2S))·√(2S)` and
`(v + 1/√2)/√2 = 1/2 + (v/2)·√2`, the quantized value equals the number of
thresholds `(2k-1)/2046`, `k = 1..1023`, lying below `1/2 + a·√T`; the
clamp is transparent because all thresholds are strictly inside `(0,1)`. -/
def encode_component (v S : ℚ) : ℕ :=
  let p : ℚ × ℚ := if 0 < S then (v / (2 * S), 2 * S) else (v / 2, 2)
  (List.range 1023).countP fun k : ℕ =>
    leSqrtMul ((2 * (k : ℚ) + 2 - 1024) / 2046) p.1 p.2

/-- The index of the largest-magnitude quaternion component in
`(w,x,y,z)` order, first index on ties (the source loop updates only on
strict `>`).  Division of all components by a positive length preserves
these comparisons, so the raw components are compared. -/
def max_idx_wxyz (rot : Fin 4 → ℚ) : Fin 4 :=
  let m1 : Fin 4 := if |rot 0| < |rot 1| then 1 else 0
  let m2 : Fin 4 := if |rot m1| < |rot 2| then 2 else m1
  if |rot m2| < |rot 3| then 3 else m2

/-- The `wxyz_to_lcc_idx` table `{0→3, 1→0, 2→1, 3→2}`. -/
def wxyz_to_lcc_idx : Fin 4 → Fin 4 := ![3, 0, 1, 2]

/-- The `order` table: which components of `src = (w,x,y,z)` are emitted
for each LCC index. -/
def rot_order : Fin 4 → Fin 3 → Fin 4 :=
  ![![2, 3, 0], ![1, 3, 0], ![1, 2, 0], ![1, 2, 3]]

/-- `encode_rotation` from `compression.cpp`.  `rot 0 = w`, `rot 1 = x`,
`rot 2 = y`, `rot 3 = z` (PLY order).  The normalization `v ↦ v/len` is
applied only when `len > 0`; it preserves the magnitude comparisons and
the sign test, so those are performed on the raw components and the
division by `len = √S` is folded into `encode_component`. -/
def encode_rotation (rot : Fin 4 → ℚ) : ℕ :=
  let S := rot 0 ^ 2 + rot 1 ^ 2 + rot 2 ^ 2 + rot 3 ^ 2
  let m := max_idx_wxyz rot
  let q : Fin 4 → ℚ := if rot m < 0 then (fun i => -rot i) else rot
  let lcc_idx := wxyz_to_lcc_idx m
  let p0 := encode_component (q (rot_order lcc_idx 0)) S
  let p1 := encode_component (q (rot_order lcc_idx 1)) S
  let p2 := encode_component (q (rot_order lcc_idx 2)) S
  p0 ||| (p1 <<< 10) ||| (p2 <<< 20) ||| ((lcc_idx : ℕ) <<< 30)

/-- The rotation packing exactly as worded by the specification: find the
largest-magnitude component index `i` of the normalized quaternion in
`(w,x,y,z)` order, negate the whole quaternion if that component is
negative, remap `i` to `j` through `{0→3, 1→0, 2→1, 3→2}`, emit the three
components selected by `j`, quantize each through
`⌊clamp ((v + 1/√2)/√2, 0, 1) * 1023 + 1/2⌋` (`encode_component`), and
place them in bits 0–9, 10–19, 20–29 with `j` in bits 30–31. -/
def rotation_spec (rot : Fin 4 → ℚ) : ℕ :=
  let S := rot 0 ^ 2 + rot 1 ^ 2 + rot 2 ^ 2 + rot 3 ^ 2
  let i := max_idx_wxyz rot
  let qn : Fin 4 → ℚ := if rot i < 0 then (fun k => -rot k) else rot
  let j := wxyz_to_lcc_idx i
  let e : ℚ × ℚ × ℚ :=
    if j = 0 then (qn 2, qn 3, qn 0)
    else if j = 1 then (qn 1, qn 3, qn 0)
    else if j = 2 then (qn 1, qn 2, qn 0)
    else (qn 1, qn 2, qn 3)
  encode_component e.1 S + encode_component e.2.1 S * 2 ^ 10 +
    encode_component e.2.2 S * 2 ^ 20 + (j : ℕ) * 2 ^ 30

/-! ## Splat views, attribute ranges and the 32/64-byte records -/

/-- A logical splat as exposed by `SplatView` (`splat_buffer.hpp`):
the fields the encoder reads.  `rot 0 = w` (scalar first, PLY order). -/
structure SplatView where
  pos : Fin 3 → ℚ
  f_dc : Fin 3 → ℚ
  opacity : ℚ
  scale : Fin 3 → ℚ
  rot : Fin 4 → ℚ
  num_f_rest : ℕ
  f_rest : ℕ → ℚ

/-- `AttributeRanges` from `types.hpp` (the aggregated global ranges). -/
structure AttributeRanges where
  scale_min : Fin 3 → ℚ
  scale_max : Fin 3 → ℚ
  sh_min_x : ℚ
  sh_min_y : ℚ
  sh_min_z : ℚ
  sh_max_x : ℚ
  sh_max_y : ℚ
  sh_max_z : ℚ
  opacity_min : ℚ
  opacity_max : ℚ

/-- `AttributeRanges()` default construction: scale/SH mins at `+FLT_MAX`,
maxes at lowest. -/
def AttributeRanges.init : AttributeRanges where
  scale_min := fun _ => FLT_MAX
  scale_max := fun _ => -FLT_MAX
  sh_min_x := FLT_MAX
  sh_min_y := FLT_MAX
  sh_min_z := FLT_MAX
  sh_max_x := -FLT_MAX
  sh_max_y := -FLT_MAX
  sh_max_z := -FLT_MAX
  opacity_min := FLT_MAX
  opacity_max := -FLT_MAX

/-- `AttributeRanges::expand_sh` from `types.hpp`: fold one RGB triple
into the per-channel SH ranges. -/
def AttributeRanges.expand_sh (ar : AttributeRanges) (r g b : ℚ) : AttributeRanges :=
  { ar with
    sh_min_x := min ar.sh_min_x r
    sh_min_y := min ar.sh_min_y g
    sh_min_z := min ar.sh_min_z b
    sh_max_x := max ar.sh_max_x r
    sh_max_y := max ar.sh_max_y g
    sh_max_z := max ar.sh_max_z b }

/-- One typed slot of an output byte stream: a float32, uint32 or uint16
field, carrying its width in bytes.  Integer-valued words are bit-exact;
float payloads are kept as their rational value (no claim depends on
float bit patterns). -/
inductive Scalar where
  | f32 (v : ℚ)
  | u32 (v : ℕ)
  | u16 (v : ℕ)
deriving DecidableEq

/-- Width in bytes of one scalar slot. -/
def Scalar.bytes : Scalar → ℕ
  | .f32 _ => 4
  | .u32 _ => 4
  | .u16 _ => 2

/-- Byte length of a scalar stream. -/
def byteSize (l : List Scalar) : ℕ := (l.map Scalar.bytes).sum

/-- The local `f_rest[45]` array built by `encode_splat_view`: the first
`min num_f_rest 45` slots are copied from the view, the rest are zero. -/
def pad_f_rest (sv : SplatView) : ℕ → ℚ := fun i =>
  if i < min sv.num_f_rest 45 then sv.f_rest i else 0

/-- `encode_splat_view` from `compression.cpp`: append the 32-byte main
record to `data_buf` and, when `has_sh`, the 64-byte SH record (sixteen
uint32 words computed by `encode_sh_coefficients` with the scalar range
`ranges.sh_min.x / ranges.sh_max.x`) to `sh_buf`. -/
def encode_splat_view (expF sigmoidF : ℚ → ℚ) (sv : SplatView)
    (data_buf sh_buf : List Scalar) (ranges : AttributeRanges)
    (has_sh : Bool) : List Scalar × List Scalar :=
  let data' := data_buf ++
    [.f32 (sv.pos 0), .f32 (sv.pos 1), .f32 (sv.pos 2),
     .u32 (encode_color sigmoidF sv.f_dc sv.opacity),
     .u16 (encode_scale expF sv.scale ranges.scale_min ranges.scale_max 0),
     .u16 (encode_scale expF sv.scale ranges.scale_min ranges.scale_max 1),
     .u16 (encode_scale expF sv.scale ranges.scale_min ranges.scale_max 2),
     .u32 (encode_rotation sv.rot),
     .u16 0, .u16 0, .u16 0]
  let sh' := if has_sh then
      sh_buf ++ (List.range 16).map (fun i =>
        Scalar.u32 (encode_sh_coefficients (pad_f_rest sv)
          ranges.sh_min_x ranges.sh_max_x i))
    else sh_buf
  (data', sh')

/-- The per-cell encoding loop of `GridEncoder::encode`
(`grid_encoder.cpp`): starting from empty buffers, fold
`encode_splat_view` over the cell's splats. -/
def encode_cell (expF sigmoidF : ℚ → ℚ) (ranges : AttributeRanges)
    (has_sh : Bool) (svs : List SplatView) : List Scalar × List Scalar :=
  svs.foldl
    (fun bufs sv => encode_splat_view expF sigmoidF sv bufs.1 bufs.2 ranges has_sh)
    ([], [])

/-- The 16 SH words of one splat record as the specification words them:
every channel normalized against the *scalar* range collapsed across the
three aggregated channels, `sh_min = min (sh_min.x, sh_min.y, sh_min.z)`
and `sh_max = max (sh_max.x, sh_max.y, sh_max.z)`.  Written from the
spec text, to be compared against the source embedding. -/
def sh_words_spec (sv : SplatView) (ranges : AttributeRanges) : List Scalar :=
  let m := min ranges.sh_min_x (min ranges.sh_min_y ranges.sh_min_z)
  let M := max ranges.sh_max_x (max ranges.sh_max_y ranges.sh_max_z)
  (List.range 16).map fun i =>
    Scalar.u32 (encode_sh_coefficients (pad_f_rest sv) m M i)

/-- The claimed f_rest band layout (claim C2 / spec §4.2): band `b` of
channel `C` lives at index `C*B + b` with `B = num_f_rest / 3`, so word
`b` of the SH record should quantize the triple
`(f_rest b, f_rest (B + b), f_rest (2B + b))`.  Written from the spec
text, to be compared against the source embedding. -/
def sh_word_layout_spec (sv : SplatView) (ranges : AttributeRanges) (b : ℕ) : Scalar :=
  let B := sv.num_f_rest / 3
  Scalar.u32 (encode_sh_triplet (sv.f_rest b) (sv.f_rest (B + b))
    (sv.f_rest (2 * B + b)) ranges.sh_min_x ranges.sh_max_x)

/-- The SH-range aggregation performed per splat by the spatial grid
build (`spatial_grid.cpp`, pass 2): for each band `b < num_f_rest / 3`,
expand the per-channel ranges with the triple read at indices
`(b, b + B, b + 2B)`. -/
def expandShAll (sv : SplatView) (ar : AttributeRanges) : AttributeRanges :=
  let B := sv.num_f_rest / 3
  (List.range B).foldl
    (fun a b => a.expand_sh (sv.f_rest b) (sv.f_rest (b + B)) (sv.f_rest (b + 2 * B)))
    ar

/-! ## Grid cell indices (`spatial_grid.cpp`, `collision_encoder.cpp`) -/

/-- `SpatialGrid::compute_cell_index`: `floor` of the scaled offsets,
clamped into `[0, 65535]` on both sides, packed as
`(cell_y << 16) | cell_x` in a `uint32`. -/
def compute_cell_index (bbox_min : Fin 3 → ℚ) (cell_size_x cell_size_y : ℚ)
    (pos : Fin 3 → ℚ) : ℕ :=
  let cell_x : ℤ := ratFloor ((pos 0 - bbox_min 0) / cell_size_x)
  let cell_y : ℤ := ratFloor ((pos 1 - bbox_min 1) / cell_size_y)
  let cx := max 0 (min cell_x 65535)
  let cy := max 0 (min cell_y 65535)
  ((cy.toNat <<< 16) ||| cx.toNat) % 2 ^ 32

/-- The per-centroid cell id of `CollisionEncoder::partition_by_cell`:
the offsets are cast straight to `int` (truncation toward zero, no
`std::floor`), negatives are clamped to 0, and there is no upper clamp
before the `uint32` packing `(cell_y << 16) | cell_x`. -/
def collision_cell_index (bbox_min_x bbox_min_y cell_size_x cell_size_y
    cx cy : ℚ) : ℕ :=
  let cell_x : ℤ := truncToInt ((cx - bbox_min_x) / cell_size_x)
  let cell_y : ℤ := truncToInt ((cy - bbox_min_y) / cell_size_y)
  let cell_x := if cell_x < 0 then 0 else cell_x
  let cell_y := if cell_y < 0 then 0 else cell_y
  ((cell_y.toNat <<< 16) ||| cell_x.toNat) % 2 ^ 32

/-! ## `SplatBuffer::initialize` (`splat_buffer.cpp`) -/

/-- `compute_sh_degree` from `splat_buffer.cpp`: the fallback for any
unrecognized `f_rest` count is degree 3. -/
def compute_sh_degree (num_f_rest : ℕ) : ℕ :=
  if num_f_rest = 0 then 0
  else if num_f_rest = 9 then 1
  else if num_f_rest = 24 then 2
  else if num_f_rest = 45 then 3
  else if num_f_rest = 72 then 4
  else 3

/-- The vertex element of a PLY file as `SplatBuffer::initialize` probes
it through the PLY reader (an external library): which property groups
were found, whether each `f_rest_i` is present, and whether the element
could be memory mapped (binary little-endian, fixed stride). -/
structure PlyVertexElement where
  has_pos : Bool
  has_normal : Bool
  has_f_dc : Bool
  has_opacity : Bool
  has_scale : Bool
  has_rot : Bool
  has_f_rest : ℕ → Bool
  mappable : Bool
  num_rows : ℕ

/-- The metadata part of `PropTable` filled in by
`SplatBuffer::initialize` (the raw byte offsets are not modelled; no
claim concerns them). -/
structure PropTable where
  num_rows : ℕ
  num_f_rest : ℕ
  sh_degree : ℕ
  has_normal : Bool
deriving DecidableEq

/-- The `f_rest` counting loop of `SplatBuffer::initialize`: probe
`f_rest_0, f_rest_1, …` and stop at the first absent index or at 128. -/
def count_f_rest (present : ℕ → Bool) : ℕ :=
  ((List.range 128).takeWhile present).length

/-- `SplatBuffer::initialize` from `splat_buffer.cpp`: the validation
chain.  Note that the `f_rest` count is never validated — any contiguous
run is accepted. -/
def SplatBuffer.initialize (e : PlyVertexElement) : Except String PropTable :=
  if !e.has_pos then .error "Missing position properties"
  else if !e.has_f_dc then .error "Missing f_dc properties - not a Gaussian splatting file"
  else if !e.has_opacity then .error "Missing opacity property"
  else if !e.has_scale then .error "Missing scale properties"
  else if !e.has_rot then .error "Missing rotation properties"
  else if !e.mappable then .error "Failed to map element"
  else
    let n := count_f_rest e.has_f_rest
    .ok { num_rows := e.num_rows, num_f_rest := n,
          sh_degree := compute_sh_degree n, has_normal := e.has_normal }

/-! ## LCC index construction (`lcc_types.cpp`) and sizes (`lcc_writer.cpp`) -/

/-- `EncodedCellData` from `lcc_types.hpp`: one encoded (cell, LOD) blob. -/
structure EncodedCellData where
  cell_id : ℕ
  lod : ℕ
  count : ℕ
  data : List Scalar
  shcoef : List Scalar
deriving DecidableEq

/-- `LccNodeInfo` from `lcc_types.hpp` (zero-initialized fields). -/
structure LccNodeInfo where
  splat_count : ℕ
  data_offset : ℕ
  data_size : ℕ
  sh_offset : ℕ
  sh_size : ℕ
deriving DecidableEq

/-- A default (all-zero) `LccNodeInfo`, the state of an untouched LOD
slot. -/
def defaultNode : LccNodeInfo := ⟨0, 0, 0, 0, 0⟩

/-- `LccUnitInfo` from `lcc_types.hpp`. -/
structure LccUnitInfo where
  index : ℕ
  lods : List LccNodeInfo
deriving DecidableEq

/-- The subset of `LccData` the index/writer claims depend on. -/
structure LccData where
  cells : List EncodedCellData
  num_lods : ℕ
  has_sh : Bool

/-- `cell_id & 0xFFFF` — the `cell_x` half of a packed id. -/
def cellKeyX (id : ℕ) : ℕ := id % 65536

/-- `(cell_id >> 16) & 0xFFFF` — the `cell_y` half of a packed id. -/
def cellKeyY (id : ℕ) : ℕ := id / 65536 % 65536

/-- The strict comparator of `LccData::sort_cells`: `cell_x` first, then
`cell_y`, then LOD. -/
def cellLt (a b : EncodedCellData) : Bool :=
  if cellKeyX a.cell_id ≠ cellKeyX b.cell_id then
    decide (cellKeyX a.cell_id < cellKeyX b.cell_id)
  else if cellKeyY a.cell_id ≠ cellKeyY b.cell_id then
    decide (cellKeyY a.cell_id < cellKeyY b.cell_id)
  else decide (a.lod < b.lod)

/-- The non-strict order induced by the comparator (what a sorted output
of `std::sort` satisfies between adjacent elements). -/
def cellLe (a b : EncodedCellData) : Bool := !cellLt b a

/-- `LccData::sort_cells`: sort the blobs by the comparator.  `std::sort`
is unstable; `mergeSort` yields one of its admissible outputs (all
theorems below only use sortedness and permutation). -/
def sort_cells (d : LccData) : LccData :=
  { d with cells := d.cells.mergeSort cellLe }

/-- The node record written for one non-empty cell by
`LccData::build_index`: `splat_count`, `data_offset`, `data_size` always;
`sh_offset`/`sh_size` only when SH data is present. -/
def mkNodeInfo (has_sh : Bool) (dOff shOff : ℕ) (c : EncodedCellData) : LccNodeInfo :=
  { splat_count := c.count
    data_offset := dOff
    data_size := byteSize c.data
    sh_offset := if has_sh && !c.shcoef.isEmpty then shOff else 0
    sh_size := if has_sh && !c.shcoef.isEmpty then byteSize c.shcoef else 0 }

/-- `UINT32_MAX`, the sentinel for "no current cell". -/
def UINT32_MAX : ℕ := 4294967295

/-- The loop of `LccData::build_index`.  Units are accumulated in
reverse (head = `current_unit`); a cell with `count = 0` is skipped; a
new id opens a fresh unit with `num_lods` default slots; the node record
is stored at slot `lod` of the current unit.  If the very first non-empty
cell carried the sentinel id the source would dereference a null
`current_unit` (undefined behaviour); that unreachable write is modelled
as dropped and excluded by hypothesis in the theorems. -/
def buildIndexAux (num_lods : ℕ) (has_sh : Bool) :
    List EncodedCellData → List LccUnitInfo → ℕ → ℕ → ℕ →
    List LccUnitInfo × ℕ × ℕ
  | [], revUnits, _, dOff, shOff => (revUnits, dOff, shOff)
  | c :: cs, revUnits, curId, dOff, shOff =>
    if c.count = 0 then buildIndexAux num_lods has_sh cs revUnits curId dOff shOff
    else
      let revUnits1 := if c.cell_id ≠ curId then
          { index := c.cell_id, lods := List.replicate num_lods defaultNode } :: revUnits
        else revUnits
      let node := mkNodeInfo has_sh dOff shOff c
      let revUnits2 := match revUnits1 with
        | [] => []
        | u :: rest => { u with lods := u.lods.set c.lod node } :: rest
      buildIndexAux num_lods has_sh cs revUnits2 c.cell_id
        (dOff + byteSize c.data)
        (if has_sh && !c.shcoef.isEmpty then shOff + byteSize c.shcoef else shOff)

/-- `LccData::build_index`: run the loop from the sentinel id and given
start offsets, returning the units in emission order plus the final
offsets. -/
def build_index (d : LccData) (dOff shOff : ℕ) : List LccUnitInfo × ℕ × ℕ :=
  let r := buildIndexAux d.num_lods d.has_sh d.cells [] UINT32_MAX dOff shOff
  (r.1.reverse, r.2)

/-- The byte stream of `data.bin` as `LccWriter::write_data_bin` emits
it: the `data` blobs of the cells in list order, empty cells skipped. -/
def dataBin (d : LccData) : List Scalar :=
  (d.cells.filter fun c => c.count != 0).flatMap (·.data)

/-- The byte stream of `shcoef.bin`: present only in Quality mode; for
each non-empty cell the `shcoef` blob is written when it is nonempty. -/
def shcoefBin (d : LccData) : List Scalar :=
  if d.has_sh then
    (d.cells.filter fun c => c.count != 0 && !c.shcoef.isEmpty).flatMap (·.shcoef)
  else []

/-- Total number of splats written by the writer: the counts of the
non-skipped cells. -/
def totalSplatsWritten (d : LccData) : ℕ :=
  ((d.cells.filter fun c => c.count != 0).map (·.count)).sum

/-- The sequence of `index.bin` LOD entries that carry data, in file
order (unit order, then LOD order inside a unit). -/
def indexEntries (units : List LccUnitInfo) : List LccNodeInfo :=
  (units.flatMap (·.lods)).filter fun n => n.splat_count != 0

/-- Analysis helper (not source): the node records of a run of non-empty
cells with cumulative offsets starting at `dOff`/`shOff`. -/
def cumEntries (has_sh : Bool) : ℕ → ℕ → List EncodedCellData → List LccNodeInfo
  | _, _, [] => []
  | dOff, shOff, c :: cs =>
    mkNodeInfo has_sh dOff shOff c ::
      cumEntries has_sh (dOff + byteSize c.data)
        (if has_sh && !c.shcoef.isEmpty then shOff + byteSize c.shcoef else shOff) cs

/-- Analysis helper (not source): the ids of the units the build loop
creates — the cell ids with runs of equal consecutive ids collapsed,
starting from the current id. -/
def newIds : ℕ → List EncodedCellData → List ℕ
  | _, [] => []
  | curId, c :: cs =>
    if c.cell_id = curId then newIds curId cs
    else c.cell_id :: newIds c.cell_id cs

/-! ## Per-cell BVH construction (`collision_encoder.cpp`, `lcc_types.cpp`) -/

/-- A triangle of the collision mesh (`lcc_types.hpp`). -/
structure Triangle where
  v0 : ℕ
  v1 : ℕ
  v2 : ℕ
deriving DecidableEq

/-- `BVHNode` from `lcc_types.hpp`: two bounds, `data0` (right child /
face offset), `data1` (split axis / face count), `flags`. -/
structure BVHNode where
  bbox_min : Fin 3 → ℚ
  bbox_max : Fin 3 → ℚ
  data0 : ℕ
  data1 : ℕ
  flags : ℕ

/-- `BVHNode::LEAF_FLAG`. -/
def LEAF_FLAG : ℕ := 0xFFFF

/-- `BVHNode::make_internal` from `lcc_types.cpp`. -/
def make_internal (bmin bmax : Fin 3 → ℚ) (right : ℕ) (axis : Fin 3) : BVHNode :=
  { bbox_min := bmin, bbox_max := bmax, data0 := right, data1 := axis, flags := 0 }

/-- `BVHNode::make_leaf` from `lcc_types.cpp`. -/
def make_leaf (bmin bmax : Fin 3 → ℚ) (offset count : ℕ) : BVHNode :=
  { bbox_min := bmin, bbox_max := bmax, data0 := offset, data1 := count,
    flags := LEAF_FLAG }

/-- Triangle lookup (`cell.faces[idx]`); in-range in every reachable
configuration. -/
def faceAt (faces : List Triangle) (i : ℕ) : Triangle := faces.getD i ⟨0, 0, 0⟩

/-- Vertex lookup (`cell.vertices[idx]`). -/
def vertAt (verts : List (Fin 3 → ℚ)) (i : ℕ) : Fin 3 → ℚ :=
  verts.getD i (fun _ => 0)

/-- `compute_triangle_bbox`, min side: `std::min({v0[a], v1[a], v2[a]})`. -/
def triMin (verts : List (Fin 3 → ℚ)) (t : Triangle) (a : Fin 3) : ℚ :=
  min (min (vertAt verts t.v0 a) (vertAt verts t.v1 a)) (vertAt verts t.v2 a)

/-- `compute_triangle_bbox`, max side. -/
def triMax (verts : List (Fin 3 → ℚ)) (t : Triangle) (a : Fin 3) : ℚ :=
  max (max (vertAt verts t.v0 a) (vertAt verts t.v1 a)) (vertAt verts t.v2 a)

/-- `compute_centroid` along one axis. -/
def centroid (verts : List (Fin 3 → ℚ)) (t : Triangle) (a : Fin 3) : ℚ :=
  (vertAt verts t.v0 a + vertAt verts t.v1 a + vertAt verts t.v2 a) / 3

/-- The node-bounds accumulation of `build_bvh`: fold `min` over the
per-triangle bounds of a segment, starting from the float literal
`1e30`. -/
def segMinQ (verts : List (Fin 3 → ℚ)) (faces : List Triangle)
    (seg : List ℕ) (a : Fin 3) : ℚ :=
  (seg.map fun idx => triMin verts (faceAt faces idx) a).foldl min (10 ^ 30)

/-- The node-bounds accumulation, max side (start `-1e30`). -/
def segMaxQ (verts : List (Fin 3 → ℚ)) (faces : List Triangle)
    (seg : List ℕ) (a : Fin 3) : ℚ :=
  (seg.map fun idx => triMax verts (faceAt faces idx) a).foldl max (-(10 ^ 30))

/-- The split-axis choice of `build_bvh`: longest extent, first axis on
ties (the loop updates only on strict `>`). -/
def splitAxis (bmin bmax : Fin 3 → ℚ) : Fin 3 :=
  let a1 : Fin 3 := if bmax 0 - bmin 0 < bmax 1 - bmin 1 then 1 else 0
  if bmax a1 - bmin a1 < bmax 2 - bmin 2 then 2 else a1

/-- `BVHBuildEntry` from `collision_encoder.cpp`. -/
structure BVHBuildEntry where
  start : ℕ
  count : ℕ
  parent_idx : ℕ
  is_right : Bool

/-- The mutable state of the `build_bvh` loop: the emitted nodes, the
reordered face indices, and the working index array. -/
structure BuildState where
  nodes : List BVHNode
  face_order : List ℕ
  indices : List ℕ

/-- The parent-pointer fixup performed when an entry is popped:
`nodes[entry.parent_idx].data0 = node_idx` when the entry is a right
child of a real parent. -/
def fixupNodes (parent_idx : ℕ) (is_right : Bool) (node_idx : ℕ)
    (nodes : List BVHNode) : List BVHNode :=
  if parent_idx ≠ UINT32_MAX && is_right then
    nodes.modify (fun nd => { nd with data0 := node_idx }) parent_idx
  else nodes

/-- Centroid comparison used to sort a segment before splitting.
`std::sort` uses strict `<`; a sorted output satisfies the non-strict
`≤` between neighbours, which is what `mergeSort` with this predicate
produces (tie order is unspecified in the source). -/
def centLe (verts : List (Fin 3 → ℚ)) (faces : List Triangle) (axis : Fin 3)
    (i j : ℕ) : Bool :=
  decide (centroid verts (faceAt faces i) axis ≤ centroid verts (faceAt faces j) axis)

/-- The explicit-stack loop of `CollisionEncoder::build_bvh`.  The head
of the list is the top of the stack; the source pushes the right child
first and the left child second, so the left child is processed first. -/
def build_loop (verts : List (Fin 3 → ℚ)) (faces : List Triangle) :
    List BVHBuildEntry → BuildState → BuildState
  | [], st => st
  | e :: stack, st =>
    let seg := (st.indices.drop e.start).take e.count
    let bmin : Fin 3 → ℚ := fun a => segMinQ verts faces seg a
    let bmax : Fin 3 → ℚ := fun a => segMaxQ verts faces seg a
    let node_idx := st.nodes.length
    let nodes0 := fixupNodes e.parent_idx e.is_right node_idx st.nodes
    if h : e.count ≤ 4 then
      build_loop verts faces stack
        { nodes := nodes0 ++ [make_leaf bmin bmax st.face_order.length e.count]
          face_order := st.face_order ++ seg
          indices := st.indices }
    else
      let axis := splitAxis bmin bmax
      let sorted := seg.mergeSort (centLe verts faces axis)
      let mid := e.count / 2
      build_loop verts faces
        ({ start := e.start, count := mid, parent_idx := node_idx, is_right := false } ::
         { start := e.start + mid, count := e.count - mid, parent_idx := node_idx,
           is_right := true } :: stack)
        { nodes := nodes0 ++ [make_internal bmin bmax 0 axis]
          face_order := st.face_order
          indices := st.indices.take e.start ++ sorted ++
            st.indices.drop (e.start + e.count) }
termination_by stack _ => (stack.map fun e => 3 * e.count - 2).sum + stack.length
decreasing_by
  · simp only [List.map_cons, List.sum_cons, List.length_cons]
    omega
  · simp only [List.map_cons, List.sum_cons, List.length_cons]
    omega

/-- `CollisionEncoder::build_bvh` for a non-empty face set: run the loop
on the root entry over the identity index permutation; the result is the
node array (serialized after the 16-byte reserved header) and the face
reorder map (`reordered_faces[i] = faces[face_order[i]]`). -/
def build_bvh (verts : List (Fin 3 → ℚ)) (faces : List Triangle) :
    List BVHNode × List ℕ :=
  if faces.isEmpty then ([], [])
  else
    let st := build_loop verts faces
      [{ start := 0, count := faces.length, parent_idx := UINT32_MAX, is_right := false }]
      { nodes := [], face_order := [], indices := List.range faces.length }
    (st.nodes, st.face_order)

/-- A point lies inside a node's bounding box. -/
def boxContains (nd : BVHNode) (v : Fin 3 → ℚ) : Prop :=
  ∀ a : Fin 3, nd.bbox_min a ≤ v a ∧ v a ≤ nd.bbox_max a

/-- Box of `inner` is contained in box of `outer`, componentwise. -/
def boxLE (inner outer : BVHNode) : Prop :=
  ∀ a : Fin 3, outer.bbox_min a ≤ inner.bbox_min a ∧
    inner.bbox_max a ≤ outer.bbox_max a

/-- All three vertices of a triangle lie inside a node's box. -/
def triInBox (verts : List (Fin 3 → ℚ)) (t : Triangle) (nd : BVHNode) : Prop :=
  boxContains nd (vertAt verts t.v0) ∧ boxContains nd (vertAt verts t.v1) ∧
    boxContains nd (vertAt verts t.v2)

/-- The face positions reachable from node `i` of a BVH node array:
positions referenced by the leaves of the subtree rooted at `i` (left
child at `i+1`, right child at `data0`), with an explicit recursion
bound. -/
def reachPositions (nodes : List BVHNode) : ℕ → ℕ → List ℕ
  | 0, _ => []
  | fuel + 1, i =>
    match nodes.get? i with
    | none => []
    | some nd =>
      if nd.flags = LEAF_FLAG then List.range' nd.data0 nd.data1
      else reachPositions nodes fuel (i + 1) ++ reachPositions nodes fuel nd.data0

/-- The positions referenced by the leaves of a node block, in creation
order. -/
def leafRangesOf (nodes : List BVHNode) : List ℕ :=
  nodes.flatMap fun nd =>
    if nd.flags = LEAF_FLAG then List.range' nd.data0 nd.data1 else []

/-- Structural soundness of a freshly built node block sitting at
absolute base index `base`, against a face-order array `fo`:
every node is a well-formed leaf (≤ 4 faces, in-range positions, own
triangles inside its own box) or a well-formed interior node (zero flag
word, split axis < 3, both children inside the block with larger
indices, children boxes inside the parent box). -/
def BlockSound (verts : List (Fin 3 → ℚ)) (faces : List Triangle)
    (base : ℕ) (new : List BVHNode) (fo : List ℕ) : Prop :=
  ∀ k nd, new.get? k = some nd →
    (nd.flags = LEAF_FLAG →
      nd.data1 ≤ 4 ∧ nd.data0 + nd.data1 ≤ fo.length ∧
      ∀ p, nd.data0 ≤ p → p < nd.data0 + nd.data1 →
        triInBox verts (faceAt faces (fo.getD p 0)) nd) ∧
    (nd.flags ≠ LEAF_FLAG →
      nd.flags = 0 ∧ nd.data1 < 3 ∧
      k + 1 < new.length ∧ base + k < nd.data0 ∧ nd.data0 < base + new.length ∧
      (∀ cnd, new.get? (k + 1) = some cnd → boxLE cnd nd) ∧
      (∀ cnd, new.get? (nd.data0 - base) = some cnd → boxLE cnd nd))

/-! ## Analysis orders for the cell sort -/

/-- The strict lexicographic key order `(cell_x, cell_y, lod)` that the
comparator `cellLt` decides. -/
def keyLt (a b : EncodedCellData) : Prop :=
  cellKeyX a.cell_id < cellKeyX b.cell_id ∨
    (cellKeyX a.cell_id = cellKeyX b.cell_id ∧
      (cellKeyY a.cell_id < cellKeyY b.cell_id ∨
        (cellKeyY a.cell_id = cellKeyY b.cell_id ∧ a.lod < b.lod)))

/-- Strict `(cell_x, cell_y)` order on packed cell ids. -/
def idLtXY (x y : ℕ) : Prop :=
  cellKeyX x < cellKeyX y ∨ (cellKeyX x = cellKeyX y ∧ cellKeyY x < cellKeyY y)

/-- Invariant tying the reversed unit accumulator and the current id to
the remaining cells during `buildIndexAux`: either no unit is open (and
then no remaining cell carries the current id), or the head unit is the
current one, has `n` LOD slots, and all its already-assigned slots sit
strictly below the LODs of the remaining cells of the same id. -/
def Compat (revUnits : List LccUnitInfo) (curId n : ℕ)
    (cs : List EncodedCellData) : Prop :=
  match revUnits with
  | [] => ∀ c ∈ cs, c.cell_id ≠ curId
  | u :: _ =>
    u.index = curId ∧ u.lods.length = n ∧
      ∀ j node, u.lods.get? j = some node → node.splat_count ≠ 0 →
        ∀ c ∈ cs, c.cell_id = curId → j < c.lod

/-! ## Concrete data for counterexamples and witnesses -/

/-- A degree-3 splat with all-zero SH rest coefficients. -/
def svA : SplatView where
  pos := ![0, 0, 0]
  f_dc := ![0, 0, 0]
  opacity := 0
  scale := ![0, 0, 0]
  rot := ![1, 0, 0, 0]
  num_f_rest := 45
  f_rest := fun _ => 0

/-- A degree-3 splat whose channels have different aggregated ranges:
R spans `[0,1]`, G spans `[-1,1]`, B spans `[0,1]`. -/
def svB : SplatView where
  pos := ![0, 0, 0]
  f_dc := ![0, 0, 0]
  opacity := 0
  scale := ![0, 0, 0]
  rot := ![1, 0, 0, 0]
  num_f_rest := 45
  f_rest := fun i =>
    if i = 0 then 1 else if i = 15 then -1 else if i = 16 then 1
    else if i = 30 then 1 else 0

/-- The per-channel SH ranges aggregated (as the spatial grid does) over
`svA` and `svB`: `sh_min = (0, -1, 0)`, `sh_max = (1, 1, 1)`. -/
def cexRanges : AttributeRanges := expandShAll svB (expandShAll svA .init)

/-- A degree-1 splat (`num_f_rest = 9`) whose nine coefficients are
`0, 1, …, 8`, so the three bands of channel C occupy indices
`3C … 3C+2`. -/
def sv9 : SplatView where
  pos := ![0, 0, 0]
  f_dc := ![0, 0, 0]
  opacity := 0
  scale := ![0, 0, 0]
  rot := ![1, 0, 0, 0]
  num_f_rest := 9
  f_rest := fun i => (i : ℚ)

/-- The aggregated ranges of `sv9` alone: `sh_min = (0, 3, 6)`,
`sh_max = (2, 5, 8)`. -/
def ranges9 : AttributeRanges := expandShAll sv9 .init

/-- A one-cell Quality-mode output whose single cell holds the encoding
of the single splat `svA`. -/
def wData : LccData where
  cells := [{ cell_id := 5, lod := 0, count := 1,
              data := (encode_cell id id cexRanges true [svA]).1,
              shcoef := (encode_cell id id cexRanges true [svA]).2 }]
  num_lods := 1
  has_sh := true

/-- A small mixed `LccData` used to witness the index invariants: two
non-empty blobs in two different cells plus one skipped empty blob. -/
def wIdx : LccData where
  cells := [⟨65537, 1, 1, [Scalar.u32 7], []⟩,
            ⟨1, 0, 2, [Scalar.u32 8, Scalar.u16 9], []⟩,
            ⟨2, 0, 0, [], []⟩]
  num_lods := 2
  has_sh := false

/-- Three vertices of a single collision triangle, used to witness the
BVH invariants. -/
def wVerts : List (Fin 3 → ℚ) := [![0, 0, 0], ![1, 0, 0], ![0, 1, 0]]

/-- The single collision face over `wVerts`. -/
def wFaces : List Triangle := [⟨0, 1, 2⟩]

/-- A well-formed 3DGS vertex element carrying ten contiguous `f_rest`
properties — a count outside the legal set `{0, 9, 24, 45, 72}`. -/
def elem10 : PlyVertexElement where
  has_pos := true
  has_normal := false
  has_f_dc := true
  has_opacity := true
  has_scale := true
  has_rot := true
  has_f_rest := fun i => decide (i < 10)
  mappable := true
  num_rows := 7

/-! # Theorems -/

/-! ## Generic arithmetic and bit-packing lemmas -/

theorem ratFloor_eq (q : ℚ) : ratFloor q = ⌊q⌋ := Rat.floor_def.symm

theorem toUIntTrunc_le {q : ℚ} {k : ℕ} (h : q ≤ (k : ℚ) + 1/2) :
    toUIntTrunc q ≤ k := by
  unfold toUIntTrunc
  rw [Int.toNat_le, ratFloor_eq]
  have h1 : ⌊q⌋ ≤ ⌊(k : ℚ) + 1/2⌋ := Int.floor_le_floor h
  have h2 : ⌊(k : ℚ) + 1/2⌋ = k := by
    rw [Int.floor_eq_iff] <;> push_cast <;> norm_num
  omega

theorem lor_shiftLeft_add (a b n : ℕ) (h : b < 2 ^ n) :
    a <<< n ||| b = a * 2 ^ n + b := by
  apply Nat.eq_of_testBit_eq
  intro j
  rw [Nat.testBit_lor, Nat.testBit_shiftLeft, mul_comm a (2 ^ n),
    Nat.testBit_mul_pow_two_add a h]
  by_cases hj : j < n
  · simp [hj, Nat.not_le.mpr hj]
  · have hb : b.testBit j = false :=
      Nat.testBit_lt_two_pow
        (lt_of_lt_of_le h (Nat.pow_le_pow_right (by norm_num) (Nat.le_of_not_lt hj)))
    simp [hj, Nat.le_of_not_lt hj, hb]

theorem pack4 (p0 p1 p2 j : ℕ) (h0 : p0 < 1024) (h1 : p1 < 1024)
    (h2 : p2 < 1024) (hj : j < 4) :
    p0 ||| (p1 <<< 10) ||| (p2 <<< 20) ||| (j <<< 30) =
      p0 + p1 * 2 ^ 10 + p2 * 2 ^ 20 + j * 2 ^ 30 := by
  have e1 : p0 ||| (p1 <<< 10) = p1 * 2 ^ 10 + p0 := by
    rw [Nat.lor_comm]
    exact lor_shiftLeft_add p1 p0 10 (by omega)
  have e2 : p1 * 2 ^ 10 + p0 ||| (p2 <<< 20) = p2 * 2 ^ 20 + (p1 * 2 ^ 10 + p0) := by
    rw [Nat.lor_comm]
    exact lor_shiftLeft_add p2 _ 20 (by norm_num; omega)
  have e3 : p2 * 2 ^ 20 + (p1 * 2 ^ 10 + p0) ||| (j <<< 30) =
      j * 2 ^ 30 + (p2 * 2 ^ 20 + (p1 * 2 ^ 10 + p0)) := by
    rw [Nat.lor_comm]
    exact lor_shiftLeft_add j _ 30 (by norm_num; omega)
  rw [e1, e2, e3]
  ring

theorem toUIntTrunc_eq {q : ℚ} (n : ℕ) (h1 : (n : ℚ) ≤ q) (h2 : q < n + 1) :
    toUIntTrunc q = n := by
  have hf : ⌊q⌋ = (n : ℤ) := by
    rw [Int.floor_eq_iff]
    refine ⟨by exact_mod_cast h1, ?_⟩
    push_cast
    exact h2
  unfold toUIntTrunc
  rw [ratFloor_eq, hf]
  simp

theorem countP_range_lt (m : ℕ) :
    ∀ n, (List.range n).countP (fun k => decide (k < m)) = min m n
  | 0 => by simp
  | n + 1 => by
    rw [List.range_succ, List.countP_append, countP_range_lt m n]
    by_cases h : n < m <;> simp [List.countP_cons, h] <;> omega

theorem encode_component_lt (v S : ℚ) : encode_component v S < 1024 := by
  unfold encode_component
  refine lt_of_le_of_lt (List.countP_le_length _) ?_
  rw [List.length_range]
  omega

theorem encode_component_zero (S : ℚ) : encode_component 0 S = 512 := by
  have key : ∀ T : ℚ, (List.range 1023).countP
      (fun k : ℕ => leSqrtMul ((2 * (k : ℚ) + 2 - 1024) / 2046) 0 T) = 512 := by
    intro T
    have hfun : (fun k : ℕ => leSqrtMul ((2 * (k : ℚ) + 2 - 1024) / 2046) 0 T) =
        fun k : ℕ => decide (k < 512) := by
      funext k
      unfold leSqrtMul
      rw [if_pos le_rfl]
      by_cases hk : k < 512
      · have hb : (2 * (k : ℚ) + 2 - 1024) / 2046 ≤ 0 := by
          apply div_nonpos_of_nonpos_of_nonneg
          · have : (k : ℚ) ≤ 511 := by exact_mod_cast Nat.lt_succ_iff.mp hk
            linarith
          · norm_num
        rw [if_pos hb, (decide_eq_true hk).symm]
      · have hb : 0 < (2 * (k : ℚ) + 2 - 1024) / 2046 := by
          apply div_pos
          · have : (512 : ℚ) ≤ (k : ℚ) := by exact_mod_cast Nat.le_of_not_lt hk
            linarith
          · norm_num
        have hsq : ¬ (((2 * (k : ℚ) + 2 - 1024) / 2046) ^ 2 ≤ 0 ^ 2 * T) := by
          intro hcon
          have h2 := pow_pos hb 2
          norm_num at hcon
          linarith
        rw [if_neg (not_le.mpr hb), decide_eq_false hsq, decide_eq_false hk]
    rw [hfun, countP_range_lt]
    omega
  unfold encode_component
  by_cases hS : 0 < S
  · rw [if_pos hS]
    simpa using key (2 * S)
  · rw [if_neg hS]
    simpa using key 2

/-! ## Claim C10 — division guards of the range quantizers -/

/-- C10: whenever a scale component range is non-positive the scale
quantizer outputs 0 without dividing, and whenever the SH range is
non-positive the SH triplet packer normalizes every channel to `0.5`,
producing the packed word `1024 ||| (512 <<< 11) ||| (1024 <<< 21)`. -/
theorem C10_range_guards (expF : ℚ → ℚ)
    (log_scale scale_min scale_max : Fin 3 → ℚ) (i : Fin 3)
    (r g b sh_min sh_max : ℚ)
    (h1 : scale_max i - scale_min i ≤ 0) (h2 : sh_max - sh_min ≤ 0) :
    encode_scale expF log_scale scale_min scale_max i = 0 ∧
    encode_sh_triplet r g b sh_min sh_max =
      1024 ||| (512 <<< 11) ||| (1024 <<< 21) := by
  constructor
  · simp only [encode_scale, if_neg (not_lt.mpr h1)]
    rw [show clamp 0 0 1 = 0 by norm_num [clamp],
      show (0 : ℚ) * 65535 + 1/2 = 1/2 by norm_num]
    exact toUIntTrunc_eq 0 (by norm_num) (by norm_num)
  · simp only [encode_sh_triplet, sh_normalize, if_pos h2]
    rw [show (1/2 : ℚ) * 2047 + 1/2 = 1024 by norm_num,
      show (1/2 : ℚ) * 1023 + 1/2 = 512 by norm_num,
      toUIntTrunc_eq 1024 (by norm_num) (by norm_num),
      toUIntTrunc_eq 512 (by norm_num) (by norm_num)]

/-- Witness for C10 at a concrete degenerate range. -/
theorem C10_range_guards_witness :
    encode_scale id ![0, 0, 0] ![1, 1, 1] ![1, 1, 1] 0 = 0 ∧
    encode_sh_triplet 5 6 7 2 2 = 1024 ||| (512 <<< 11) ||| (1024 <<< 21) :=
  C10_range_guards id ![0, 0, 0] ![1, 1, 1] ![1, 1, 1] 0 5 6 7 2 2
    (by norm_num) (by norm_num)

/-! ## Claim C8 — totality of the rotation packer, zero quaternion -/

/-- C8: the rotation packer is total — the division by the quaternion
length is performed (inside `encode_component`) only when the squared
length is strictly positive, and a well-defined word below `2^32` is
returned for every input; on the zero quaternion `(0,0,0,0)` the index
bits are `j = 3` and the three emitted components quantize to 512. -/
theorem C8_rotation_total :
    (∀ rot : Fin 4 → ℚ, encode_rotation rot < 2 ^ 32) ∧
    encode_rotation ![0, 0, 0, 0] =
      (512 ||| (512 <<< 10) ||| (512 <<< 20) ||| (3 <<< 30)) := by
  constructor
  · intro rot
    simp only [encode_rotation]
    rw [pack4 _ _ _ _ (encode_component_lt _ _) (encode_component_lt _ _)
      (encode_component_lt _ _) (Fin.is_lt _)]
    have b0 := encode_component_lt (((if rot (max_idx_wxyz rot) < 0 then
        (fun i => -rot i) else rot)) (rot_order (wxyz_to_lcc_idx (max_idx_wxyz rot)) 0))
      (rot 0 ^ 2 + rot 1 ^ 2 + rot 2 ^ 2 + rot 3 ^ 2)
    have b1 := encode_component_lt (((if rot (max_idx_wxyz rot) < 0 then
        (fun i => -rot i) else rot)) (rot_order (wxyz_to_lcc_idx (max_idx_wxyz rot)) 1))
      (rot 0 ^ 2 + rot 1 ^ 2 + rot 2 ^ 2 + rot 3 ^ 2)
    have b2 := encode_component_lt (((if rot (max_idx_wxyz rot) < 0 then
        (fun i => -rot i) else rot)) (rot_order (wxyz_to_lcc_idx (max_idx_wxyz rot)) 2))
      (rot 0 ^ 2 + rot 1 ^ 2 + rot 2 ^ 2 + rot 3 ^ 2)
    have bj : ((wxyz_to_lcc_idx (max_idx_wxyz rot)) : ℕ) < 4 := Fin.is_lt _
    norm_num
    omega
  · have hz : ∀ i : Fin 4, (![0, 0, 0, 0] : Fin 4 → ℚ) i = 0 := by
      intro i
      fin_cases i <;> rfl
    have hmax : max_idx_wxyz ![0, 0, 0, 0] = 0 := by
      unfold max_idx_wxyz
      simp [hz]
    simp only [encode_rotation, hmax, hz, lt_self_iff_false, if_false,
      encode_component_zero]
    rfl

/-! ## Claim C4 — structure of the rotation packing -/

theorem pack_eq_cases (m : Fin 4) (q : Fin 4 → ℚ) (S : ℚ) :
    encode_component (q (rot_order (wxyz_to_lcc_idx m) 0)) S |||
      (encode_component (q (rot_order (wxyz_to_lcc_idx m) 1)) S <<< 10) |||
      (encode_component (q (rot_order (wxyz_to_lcc_idx m) 2)) S <<< 20) |||
      (((wxyz_to_lcc_idx m) : ℕ) <<< 30) =
    (let j := wxyz_to_lcc_idx m
     let e : ℚ × ℚ × ℚ :=
       if j = 0 then (q 2, q 3, q 0)
       else if j = 1 then (q 1, q 3, q 0)
       else if j = 2 then (q 1, q 2, q 0)
       else (q 1, q 2, q 3)
     encode_component e.1 S + encode_component e.2.1 S * 2 ^ 10 +
       encode_component e.2.2 S * 2 ^ 20 + (j : ℕ) * 2 ^ 30) := by
  rw [pack4 _ _ _ _ (encode_component_lt _ _) (encode_component_lt _ _)
    (encode_component_lt _ _) (Fin.is_lt _)]
  fin_cases m <;> rfl

/-! ## Claim C1 — SH record packing and its normalization range -/

theorem clamp_mem {x lo hi : ℚ} (h : lo ≤ hi) :
    lo ≤ clamp x lo hi ∧ clamp x lo hi ≤ hi := by
  unfold clamp
  split
  · exact ⟨le_rfl, h⟩
  · split
    · exact ⟨h, le_rfl⟩
    · constructor <;> linarith [not_lt.mp (by assumption : ¬ x < lo)]

theorem sh_normalize_mem (m range v : ℚ) :
    0 ≤ sh_normalize m range v ∧ sh_normalize m range v ≤ 1 := by
  unfold sh_normalize
  split
  · norm_num
  · exact clamp_mem (by norm_num)

theorem sh_enc_le (m range v : ℚ) (k : ℕ) :
    toUIntTrunc (sh_normalize m range v * k + 1/2) ≤ k := by
  apply toUIntTrunc_le
  have h := (sh_normalize_mem m range v).2
  have hk : (0 : ℚ) ≤ k := by positivity
  nlinarith

/-- The three bit fields of an SH word recover the three quantized
channels: bits 0–10 hold the R channel (`*2047`), bits 11–20 the G
channel (`*1023`), bits 21–31 the B channel (`*2047`). -/
theorem sh_triplet_fields (r g b m M : ℚ) :
    encode_sh_triplet r g b m M % 2 ^ 11 =
      toUIntTrunc (sh_normalize m (M - m) r * 2047 + 1/2) ∧
    encode_sh_triplet r g b m M / 2 ^ 11 % 2 ^ 10 =
      toUIntTrunc (sh_normalize m (M - m) g * 1023 + 1/2) ∧
    encode_sh_triplet r g b m M / 2 ^ 21 =
      toUIntTrunc (sh_normalize m (M - m) b * 2047 + 1/2) := by
  have hr := sh_enc_le m (M - m) r 2047
  have hg := sh_enc_le m (M - m) g 1023
  have hb := sh_enc_le m (M - m) b 2047
  push_cast at hr hg hb
  simp only [encode_sh_triplet]
  rw [Nat.lor_comm _ (toUIntTrunc (sh_normalize m (M - m) g * 1023 + 1/2) <<< 11),
    lor_shiftLeft_add _ _ 11 (by omega), Nat.lor_comm,
    lor_shiftLeft_add _ _ 21 (by norm_num; omega)]
  refine ⟨?_, ?_, ?_⟩ <;> (norm_num; omega)

/-- C1 (amended): in Quality mode every splat gets a 16-uint32 SH record
whose word `i < 15` packs band `i` as 11/10/11 bits for R/G/B, each
channel normalized against the *R-channel* aggregated scalar range
`ranges.sh_min.x / ranges.sh_max.x` (not the min/max across the three
channels), quantized as `*2047 + 0.5` for R and B and `*1023 + 0.5` for
G over the zero-padded 45-entry `f_rest` array, and whose 16th word is
zero. -/
theorem C1_sh_record (expF sigmoidF : ℚ → ℚ) (sv : SplatView)
    (data_buf sh_buf : List Scalar) (ranges : AttributeRanges) :
    (encode_splat_view expF sigmoidF sv data_buf sh_buf ranges true).2 =
      sh_buf ++ (List.range 16).map (fun i =>
        Scalar.u32 (if i < 15 then
          (toUIntTrunc (sh_normalize ranges.sh_min_x
              (ranges.sh_max_x - ranges.sh_min_x) (pad_f_rest sv i) * 2047 + 1/2)) |||
          ((toUIntTrunc (sh_normalize ranges.sh_min_x
              (ranges.sh_max_x - ranges.sh_min_x) (pad_f_rest sv (15 + i)) * 1023 + 1/2)) <<< 11) |||
          ((toUIntTrunc (sh_normalize ranges.sh_min_x
              (ranges.sh_max_x - ranges.sh_min_x) (pad_f_rest sv (30 + i)) * 2047 + 1/2)) <<< 21)
        else 0)) := rfl

theorem cexRanges_eval :
    cexRanges.sh_min_x = 0 ∧ cexRanges.sh_min_y = -1 ∧ cexRanges.sh_min_z = 0 ∧
    cexRanges.sh_max_x = 1 ∧ cexRanges.sh_max_y = 1 ∧ cexRanges.sh_max_z = 1 := by
  have hr : List.range 15 = [0, 1, 2, 3, 4, 5, 6, 7, 8, 9, 10, 11, 12, 13, 14] := by
    decide
  norm_num [cexRanges, expandShAll, svA, svB, hr, AttributeRanges.expand_sh,
    AttributeRanges.init, FLT_MAX, min_def, max_def, Matrix.cons_val_zero,
    Matrix.cons_val_one, Matrix.head_cons, Matrix.cons_val_two, Matrix.vecTail,
    Function.comp]

theorem sh_triplet_000_01 : encode_sh_triplet 0 0 0 0 1 = 0 := by
  simp only [encode_sh_triplet, sh_normalize]
  rw [if_neg (by norm_num : ¬ ((1 : ℚ) - 0 ≤ 0)),
    show clamp ((0 - 0) / ((1 : ℚ) - 0)) 0 1 = 0 by norm_num [clamp],
    show (0 : ℚ) * 2047 + 1/2 = 1/2 by norm_num,
    show (0 : ℚ) * 1023 + 1/2 = 1/2 by norm_num,
    toUIntTrunc_eq 0 (by norm_num) (by norm_num)]
  rfl

theorem sh_triplet_000_neg11 :
    encode_sh_triplet 0 0 0 (-1) 1 = 1024 ||| (512 <<< 11) ||| (1024 <<< 21) := by
  simp only [encode_sh_triplet, sh_normalize]
  rw [if_neg (by norm_num : ¬ ((1 : ℚ) - (-1) ≤ 0)),
    show clamp ((0 - (-1)) / ((1 : ℚ) - (-1))) 0 1 = 1/2 by norm_num [clamp],
    show (1/2 : ℚ) * 2047 + 1/2 = 1024 by norm_num,
    show (1/2 : ℚ) * 1023 + 1/2 = 512 by norm_num,
    toUIntTrunc_eq 1024 (by norm_num) (by norm_num),
    toUIntTrunc_eq 512 (by norm_num) (by norm_num)]

/-- C1 counterexample: the first SH word produced for `svA` under the
aggregated ranges of `{svA, svB}` differs from what the claim's
channel-collapsed scalar range `min(sh_min.x, sh_min.y, sh_min.z)` /
`max(sh_max.x, sh_max.y, sh_max.z)` would give: the encoder normalizes
against the R-channel range `[0,1]` (word `0`), not `[-1,1]`
(word `1024 ||| 512<<<11 ||| 1024<<<21`). -/
theorem C1_counterexample :
    ((encode_splat_view id id svA [] [] cexRanges true).2).get? 0 ≠
      (sh_words_spec svA cexRanges).get? 0 := by
  obtain ⟨e1, e2, e3, e4, e5, e6⟩ := cexRanges_eval
  have hpad : pad_f_rest svA = fun _ => 0 := by
    funext i
    simp [pad_f_rest, svA]
  have hr16 : List.range 16 = [0, 1, 2, 3, 4, 5, 6, 7, 8, 9, 10, 11, 12, 13, 14, 15] := by
    decide
  have hL : ((encode_splat_view id id svA [] [] cexRanges true).2).get? 0 =
      some (Scalar.u32 (encode_sh_triplet 0 0 0 cexRanges.sh_min_x cexRanges.sh_max_x)) := by
    simp [encode_splat_view, hr16, encode_sh_coefficients, hpad]
  have hR : (sh_words_spec svA cexRanges).get? 0 =
      some (Scalar.u32 (encode_sh_triplet 0 0 0
        (min cexRanges.sh_min_x (min cexRanges.sh_min_y cexRanges.sh_min_z))
        (max cexRanges.sh_max_x (max cexRanges.sh_max_y cexRanges.sh_max_z)))) := by
    simp [sh_words_spec, hr16, encode_sh_coefficients, hpad]
  rw [hL, hR, e1, e2, e3, e4, e5, e6]
  rw [show min (0 : ℚ) (min (-1) 0) = -1 by norm_num,
    show max (1 : ℚ) (max 1 1) = 1 by norm_num,
    sh_triplet_000_01, sh_triplet_000_neg11]
  simp

/-! ## Claim C2 — f_rest band indexing -/

theorem ranges9_eval : ranges9.sh_min_x = 0 ∧ ranges9.sh_max_x = 2 := by
  have hr : List.range 3 = [0, 1, 2] := by decide
  norm_num [ranges9, expandShAll, sv9, AttributeRanges.expand_sh,
    AttributeRanges.init, FLT_MAX, min_def, max_def, hr]

theorem sh_triplet_000_02 : encode_sh_triplet 0 0 0 0 2 = 0 := by
  simp only [encode_sh_triplet, sh_normalize]
  rw [if_neg (by norm_num : ¬ ((2 : ℚ) - 0 ≤ 0)),
    show clamp ((0 - 0) / ((2 : ℚ) - 0)) 0 1 = 0 by norm_num [clamp],
    show (0 : ℚ) * 2047 + 1/2 = 1/2 by norm_num,
    show (0 : ℚ) * 1023 + 1/2 = 1/2 by norm_num,
    toUIntTrunc_eq 0 (by norm_num) (by norm_num)]
  rfl

theorem sh_triplet_036_02 :
    encode_sh_triplet 0 3 6 0 2 = 0 ||| (1023 <<< 11) ||| (2047 <<< 21) := by
  have hcond : ¬ ((2 : ℚ) - 0 ≤ 0) := by norm_num
  simp only [encode_sh_triplet, sh_normalize, if_neg hcond]
  rw [show clamp ((0 - 0) / ((2 : ℚ) - 0)) 0 1 = 0 by norm_num [clamp],
    show clamp ((3 - 0) / ((2 : ℚ) - 0)) 0 1 = 1 by norm_num [clamp],
    show clamp ((6 - 0) / ((2 : ℚ) - 0)) 0 1 = 1 by norm_num [clamp],
    show (0 : ℚ) * 2047 + 1/2 = 1/2 by norm_num,
    show (1 : ℚ) * 1023 + 1/2 = 1023 + 1/2 by norm_num,
    show (1 : ℚ) * 2047 + 1/2 = 2047 + 1/2 by norm_num,
    toUIntTrunc_eq 0 (by norm_num) (by norm_num),
    toUIntTrunc_eq 1023 (by norm_num) (by norm_num),
    toUIntTrunc_eq 2047 (by norm_num) (by norm_num)]

/-- C2 counterexample: for the legal count `num_f_rest = 9` (`B = 3`)
the encoder does *not* read band `b` of channel `C` at index `C*B + b`:
on `sv9` (coefficients `0..8`) the first produced SH word quantizes the
zero-padded triple at indices `(0, 15, 30)` instead of the claimed
`(0, 3, 6)`, and the two words differ. -/
theorem C2_counterexample :
    ((encode_splat_view id id sv9 [] [] ranges9 true).2).get? 0 ≠
      some (sh_word_layout_spec sv9 ranges9 0) := by
  obtain ⟨e1, e2⟩ := ranges9_eval
  have hr16 : List.range 16 = [0, 1, 2, 3, 4, 5, 6, 7, 8, 9, 10, 11, 12, 13, 14, 15] := by
    decide
  have hpad0 : pad_f_rest sv9 0 = 0 := by
    simp [pad_f_rest, sv9]
  have hpad15 : pad_f_rest sv9 15 = 0 := by
    simp [pad_f_rest, sv9]
  have hpad30 : pad_f_rest sv9 30 = 0 := by
    simp [pad_f_rest, sv9]
  have hL : ((encode_splat_view id id sv9 [] [] ranges9 true).2).get? 0 =
      some (Scalar.u32 (encode_sh_triplet 0 0 0 ranges9.sh_min_x ranges9.sh_max_x)) := by
    simp [encode_splat_view, hr16, encode_sh_coefficients, hpad0, hpad15, hpad30]
  have hR : sh_word_layout_spec sv9 ranges9 0 =
      Scalar.u32 (encode_sh_triplet 0 3 6 ranges9.sh_min_x ranges9.sh_max_x) := by
    norm_num [sh_word_layout_spec, sv9]
  rw [hL, hR, e1, e2, sh_triplet_000_02, sh_triplet_036_02]
  simp

/-- C2 (amended): the SH encoder always uses the fixed degree-3 offsets
`0 / 15 / 30` over the 45-entry zero-padded `f_rest` array, whatever
`num_f_rest` is: word `b < 15` of the record quantizes the padded triple
at indices `(b, 15+b, 30+b)`.  Consequently the claimed `C*B + b` layout
is honored by the encoder exactly when `num_f_rest = 45` (where
`B = 45/3 = 15` and the padded array agrees with `f_rest` below 45);
for the other legal counts 9, 24 and 72 it is not. -/
theorem C2_sh_band_indexing (expF sigmoidF : ℚ → ℚ) (sv : SplatView)
    (data_buf sh_buf : List Scalar) (ranges : AttributeRanges) (b : ℕ)
    (hb : b < 15) :
    ((encode_splat_view expF sigmoidF sv data_buf sh_buf ranges true).2).get?
        (sh_buf.length + b) =
      some (Scalar.u32 (encode_sh_triplet (pad_f_rest sv b) (pad_f_rest sv (15 + b))
        (pad_f_rest sv (30 + b)) ranges.sh_min_x ranges.sh_max_x)) ∧
    (sv.num_f_rest = 45 → ∀ C : Fin 3,
      pad_f_rest sv ((C : ℕ) * 15 + b) = sv.f_rest ((C : ℕ) * (sv.num_f_rest / 3) + b)) := by
  constructor
  · show (sh_buf ++ (List.range 16).map _).get? (sh_buf.length + b) = _
    rw [List.get?_append_right (by omega), Nat.add_sub_cancel_left,
      List.get?_map, List.get?_range (by omega)]
    simp [encode_sh_coefficients, hb]
  · intro h45 C
    have hC : (C : ℕ) < 3 := C.isLt
    rw [pad_f_rest, if_pos (by rw [h45]; omega), h45]

/-- Witness for the amended C2 at `sv9`, band 0. -/
theorem C2_sh_band_indexing_witness :
    ((encode_splat_view id id sv9 [] [] ranges9 true).2).get? (([] : List Scalar).length + 0) =
      some (Scalar.u32 (encode_sh_triplet (pad_f_rest sv9 0) (pad_f_rest sv9 15)
        (pad_f_rest sv9 30) ranges9.sh_min_x ranges9.sh_max_x)) ∧
    (sv9.num_f_rest = 45 → ∀ C : Fin 3,
      pad_f_rest sv9 ((C : ℕ) * 15 + 0) = sv9.f_rest ((C : ℕ) * (sv9.num_f_rest / 3) + 0)) :=
  C2_sh_band_indexing id id sv9 [] [] ranges9 0 (by omega)

/-- C4: the rotation packer implements exactly the claimed pipeline —
normalize, pick the largest-magnitude component index `i` in `(w,x,y,z)`
order, negate the quaternion if that component is negative, remap `i`
through `{0→3, 1→0, 2→1, 3→2}` to `j`, emit the three components
selected by `j` (`j=0 → (y,z,w)`, `j=1 → (x,z,w)`, `j=2 → (x,y,w)`,
`j=3 → (x,y,z)`), quantize each through
`⌊clamp ((v + 1/√2)/√2, 0, 1)·1023 + 1/2⌋`, and pack them into bits
0–9 / 10–19 / 20–29 with `j` in bits 30–31. -/
theorem C4_rotation_packing (rot : Fin 4 → ℚ) :
    encode_rotation rot = rotation_spec rot := by
  simp only [encode_rotation, rotation_spec]
  exact pack_eq_cases (max_idx_wxyz rot) _ _

/-! ## Claim C5 — cell id packing and clamping -/

theorem ratFloor_140001_half : ratFloor (140001/2 : ℚ) = 70000 := by
  rw [ratFloor_eq]
  apply Int.floor_eq_iff.mpr
  constructor <;> (push_cast; norm_num)

theorem ratFloor_one_half : ratFloor (1/2 : ℚ) = 0 := by
  rw [ratFloor_eq]
  apply Int.floor_eq_iff.mpr
  constructor <;> (push_cast; norm_num)

/-- C5 counterexample: the collision partitioner applies no upper clamp.
For a centroid at `x = 70000.5` (bbox min 0, cell size 1) it produces
cell id 70000 — whose packed halves are `cell_x = 4464`, `cell_y = 1` —
whereas the claimed clamping to `[0, 65535]` would give id
`(0 <<< 16) ||| 65535 = 65535`. -/
theorem C5_counterexample :
    collision_cell_index 0 0 1 1 (140001/2) (1/2) = 70000 ∧
    cellKeyX 70000 = 4464 ∧ cellKeyY 70000 = 1 ∧
    (70000 : ℕ) ≠ ((min 0 65535) <<< 16) ||| (min 70000 65535) := by
  refine ⟨?_, by decide, by decide, by decide⟩
  simp only [collision_cell_index, truncToInt]
  rw [show ((140001/2 : ℚ) - 0) / 1 = 140001/2 by norm_num,
    show ((1/2 : ℚ) - 0) / 1 = 1/2 by norm_num,
    if_neg (by norm_num : ¬ ((140001/2 : ℚ) < 0)),
    if_neg (by norm_num : ¬ ((1/2 : ℚ) < 0)),
    ratFloor_140001_half, ratFloor_one_half]
  decide

/-- C5 (amended): the splat grid's per-position cell computation clamps
both coordinates into `[0, 65535]` and packs `cell_x` in the low 16 bits
and `cell_y` in the high 16 bits; the collision partitioner clamps only
negatives to 0 with no upper clamp, so its ids have that packed form
exactly when the truncated coordinates already lie in `[0, 65535]`. -/
theorem C5_cell_id_packing (bbox_min : Fin 3 → ℚ) (csx csy : ℚ)
    (pos : Fin 3 → ℚ) (bx bcy ccsx ccsy cx cy : ℚ)
    (hx : 0 < csx) (hy : 0 < csy)
    (hcx : (if truncToInt ((cx - bx) / ccsx) < 0 then 0
        else truncToInt ((cx - bx) / ccsx)) ≤ 65535)
    (hcy : (if truncToInt ((cy - bcy) / ccsy) < 0 then 0
        else truncToInt ((cy - bcy) / ccsy)) ≤ 65535) :
    (compute_cell_index bbox_min csx csy pos =
        (max 0 (min (ratFloor ((pos 1 - bbox_min 1) / csy)) 65535)).toNat * 2 ^ 16 +
        (max 0 (min (ratFloor ((pos 0 - bbox_min 0) / csx)) 65535)).toNat ∧
      cellKeyX (compute_cell_index bbox_min csx csy pos) =
        (max 0 (min (ratFloor ((pos 0 - bbox_min 0) / csx)) 65535)).toNat ∧
      cellKeyY (compute_cell_index bbox_min csx csy pos) =
        (max 0 (min (ratFloor ((pos 1 - bbox_min 1) / csy)) 65535)).toNat ∧
      (max 0 (min (ratFloor ((pos 0 - bbox_min 0) / csx)) 65535)).toNat ≤ 65535 ∧
      (max 0 (min (ratFloor ((pos 1 - bbox_min 1) / csy)) 65535)).toNat ≤ 65535) ∧
    (collision_cell_index bx bcy ccsx ccsy cx cy =
        (if truncToInt ((cy - bcy) / ccsy) < 0 then 0
          else truncToInt ((cy - bcy) / ccsy)).toNat * 2 ^ 16 +
        (if truncToInt ((cx - bx) / ccsx) < 0 then 0
          else truncToInt ((cx - bx) / ccsx)).toNat) := by
  have pack : ∀ a b : ℤ, a.toNat ≤ 65535 → b.toNat ≤ 65535 →
      ((b.toNat <<< 16) ||| a.toNat) % 2 ^ 32 = b.toNat * 2 ^ 16 + a.toNat := by
    intro a b ha hb
    rw [lor_shiftLeft_add _ _ 16 (by norm_num; omega)]
    apply Nat.mod_eq_of_lt
    norm_num
    omega
  have hxN : (max 0 (min (ratFloor ((pos 0 - bbox_min 0) / csx)) 65535)).toNat ≤ 65535 := by
    omega
  have hyN : (max 0 (min (ratFloor ((pos 1 - bbox_min 1) / csy)) 65535)).toNat ≤ 65535 := by
    omega
  have hgrid : compute_cell_index bbox_min csx csy pos =
      (max 0 (min (ratFloor ((pos 1 - bbox_min 1) / csy)) 65535)).toNat * 2 ^ 16 +
      (max 0 (min (ratFloor ((pos 0 - bbox_min 0) / csx)) 65535)).toNat := by
    simp only [compute_cell_index]
    exact pack _ _ hxN hyN
  have hcoll : collision_cell_index bx bcy ccsx ccsy cx cy =
      (if truncToInt ((cy - bcy) / ccsy) < 0 then 0
        else truncToInt ((cy - bcy) / ccsy)).toNat * 2 ^ 16 +
      (if truncToInt ((cx - bx) / ccsx) < 0 then 0
        else truncToInt ((cx - bx) / ccsx)).toNat := by
    simp only [collision_cell_index]
    exact pack _ _ (by omega) (by omega)
  refine ⟨⟨hgrid, ?_, ?_, hxN, hyN⟩, hcoll⟩
  · rw [hgrid]
    unfold cellKeyX
    omega
  · rw [hgrid]
    unfold cellKeyY
    omega

theorem truncToInt_three_halves : truncToInt (3/2 : ℚ) = 1 := by
  rw [truncToInt, if_neg (by norm_num), ratFloor_eq]
  apply Int.floor_eq_iff.mpr
  constructor <;> norm_num

theorem truncToInt_five_halves : truncToInt (5/2 : ℚ) = 2 := by
  rw [truncToInt, if_neg (by norm_num), ratFloor_eq]
  apply Int.floor_eq_iff.mpr
  constructor <;> norm_num

/-- Witness for the amended C5 at a concrete in-range input: position
`(3/2, 5/2)` with unit cells lands in cell `(1, 2)` for the splat grid
and the centroid `(3/2, 5/2)` in the same cell for the partitioner. -/
theorem C5_cell_id_packing_witness :
    compute_cell_index ![0, 0, 0] 1 1 ![3/2, 5/2, 0] = 2 * 2 ^ 16 + 1 ∧
    collision_cell_index 0 0 1 1 (3/2) (5/2) = 2 * 2 ^ 16 + 1 := by
  have hfx : ratFloor (3/2 : ℚ) = 1 := by
    rw [ratFloor_eq]
    apply Int.floor_eq_iff.mpr
    constructor <;> norm_num
  have hfy : ratFloor (5/2 : ℚ) = 2 := by
    rw [ratFloor_eq]
    apply Int.floor_eq_iff.mpr
    constructor <;> norm_num
  have htx : truncToInt ((3/2 - 0) / 1 : ℚ) = 1 := by
    rw [show ((3/2 - 0) / 1 : ℚ) = 3/2 by norm_num, truncToInt,
      if_neg (by norm_num), hfx]
  have hty : truncToInt ((5/2 - 0) / 1 : ℚ) = 2 := by
    rw [show ((5/2 - 0) / 1 : ℚ) = 5/2 by norm_num, truncToInt,
      if_neg (by norm_num), hfy]
  obtain ⟨⟨hg, -, -, -, -⟩, hc⟩ :=
    C5_cell_id_packing ![0, 0, 0] 1 1 ![3/2, 5/2, 0] 0 0 1 1 (3/2) (5/2)
      (by norm_num) (by norm_num)
      (by rw [htx]; norm_num)
      (by rw [hty]; norm_num)
  constructor
  · rw [hg,
      show ((![3/2, 5/2, 0] : Fin 3 → ℚ) 0 - (![0, 0, 0] : Fin 3 → ℚ) 0) / 1 = 3/2 by
        norm_num [Matrix.cons_val_zero],
      show ((![3/2, 5/2, 0] : Fin 3 → ℚ) 1 - (![0, 0, 0] : Fin 3 → ℚ) 1) / 1 = 5/2 by
        norm_num [Matrix.cons_val_one, Matrix.head_cons],
      hfx, hfy]
    decide
  · rw [hc, htx, hty]
    decide

/-! ## Claim C9 — f_rest counts are not validated -/

/-- C9: `SplatBuffer::initialize` accepts any contiguous `f_rest_i` run
(no validation of the count): with the required properties present and
the element mappable it always succeeds, records the counted run, and
reports `compute_sh_degree` of it — which maps every count other than
0, 9, 24 and 72 to SH degree 3. -/
theorem C9_f_rest_unvalidated :
    (∀ e : PlyVertexElement, e.has_pos = true → e.has_f_dc = true →
      e.has_opacity = true → e.has_scale = true → e.has_rot = true →
      e.mappable = true →
      SplatBuffer.initialize e = .ok
        { num_rows := e.num_rows, num_f_rest := count_f_rest e.has_f_rest,
          sh_degree := compute_sh_degree (count_f_rest e.has_f_rest),
          has_normal := e.has_normal }) ∧
    (∀ n : ℕ, n ≠ 0 → n ≠ 9 → n ≠ 24 → n ≠ 72 → compute_sh_degree n = 3) := by
  constructor
  · intro e h1 h2 h3 h4 h5 h6
    simp [ SplatBuffer.initialize, h1, h2, h3, h4, h5, h6]
  · intro n h0 h9 h24 h72
    simp only [compute_sh_degree, if_neg h0, if_neg h9, if_neg h24, if_neg h72]
    split <;> rfl

/-- Witness for C9: an element with ten `f_rest` properties (an illegal
count) is accepted and reported as degree 3. -/
theorem C9_f_rest_unvalidated_witness :
    SplatBuffer.initialize elem10 = .ok
      { num_rows := elem10.num_rows, num_f_rest := count_f_rest elem10.has_f_rest,
        sh_degree := compute_sh_degree (count_f_rest elem10.has_f_rest),
        has_normal := elem10.has_normal } ∧
    compute_sh_degree 10 = 3 :=
  ⟨C9_f_rest_unvalidated.1 elem10 rfl rfl rfl rfl rfl rfl,
   C9_f_rest_unvalidated.2 10 (by omega) (by omega) (by omega) (by omega)⟩

/-! ## Claim C7 — record sizes of `data.bin` and `shcoef.bin` -/

theorem byteSize_append (a b : List Scalar) :
    byteSize (a ++ b) = byteSize a + byteSize b := by
  unfold byteSize
  rw [List.map_append, List.sum_append]

theorem byteSize_flatMap {α : Type} (f : α → List Scalar) :
    ∀ l : List α, byteSize (l.flatMap f) = (l.map fun a => byteSize (f a)).sum
  | [] => rfl
  | a :: l => by
    simp only [List.flatMap_cons, List.map_cons, List.sum_cons]
    rw [byteSize_append, byteSize_flatMap f l]

theorem byteSize_pos_of_ne_nil {l : List Scalar} (h : l ≠ []) : 0 < byteSize l := by
  match l with
  | [] => exact absurd rfl h
  | s :: l =>
    have : 2 ≤ s.bytes := by cases s <;> simp [Scalar.bytes]
    simp only [byteSize, List.map_cons, List.sum_cons]
    omega

theorem encode_splat_view_sizes (expF sigmoidF : ℚ → ℚ) (sv : SplatView)
    (data_buf sh_buf : List Scalar) (ranges : AttributeRanges) (has_sh : Bool) :
    byteSize (encode_splat_view expF sigmoidF sv data_buf sh_buf ranges has_sh).1 =
      byteSize data_buf + 32 ∧
    byteSize (encode_splat_view expF sigmoidF sv data_buf sh_buf ranges has_sh).2 =
      byteSize sh_buf + (if has_sh then 64 else 0) := by
  constructor
  · show byteSize (data_buf ++ _) = _
    rw [byteSize_append]
    rfl
  · show byteSize (if has_sh then sh_buf ++ _ else sh_buf) = _
    cases has_sh
    · simp
    · simp only [if_pos]
      rw [byteSize_append]
      have h4 : byteSize ((List.range 16).map (fun i =>
          Scalar.u32 (encode_sh_coefficients (pad_f_rest sv)
            ranges.sh_min_x ranges.sh_max_x i))) = 64 := by
        unfold byteSize
        rw [List.map_map]
        have hc : List.map (Scalar.bytes ∘ fun i =>
            Scalar.u32 (encode_sh_coefficients (pad_f_rest sv)
              ranges.sh_min_x ranges.sh_max_x i)) (List.range 16) =
            List.map (fun _ => (4 : ℕ)) (List.range 16) :=
          List.map_congr_left (fun i _ => rfl)
        rw [hc]
        simp
      omega

theorem encode_cell_fold_sizes (expF sigmoidF : ℚ → ℚ) (ranges : AttributeRanges)
    (has_sh : Bool) :
    ∀ (svs : List SplatView) (bufs : List Scalar × List Scalar),
      byteSize ((svs.foldl (fun b sv =>
          encode_splat_view expF sigmoidF sv b.1 b.2 ranges has_sh) bufs).1) =
        byteSize bufs.1 + 32 * svs.length ∧
      byteSize ((svs.foldl (fun b sv =>
          encode_splat_view expF sigmoidF sv b.1 b.2 ranges has_sh) bufs).2) =
        byteSize bufs.2 + (if has_sh then 64 else 0) * svs.length
  | [], bufs => by simp
  | sv :: svs, bufs => by
    simp only [List.foldl_cons, List.length_cons]
    have ih := encode_cell_fold_sizes expF sigmoidF ranges has_sh svs
      (encode_splat_view expF sigmoidF sv bufs.1 bufs.2 ranges has_sh)
    have h1 := encode_splat_view_sizes expF sigmoidF sv bufs.1 bufs.2 ranges has_sh
    refine ⟨?_, ?_⟩
    · rw [ih.1, h1.1]
      ring
    · rw [ih.2, h1.2]
      ring

theorem encode_cell_sizes (expF sigmoidF : ℚ → ℚ) (ranges : AttributeRanges)
    (has_sh : Bool) (svs : List SplatView) :
    byteSize (encode_cell expF sigmoidF ranges has_sh svs).1 = 32 * svs.length ∧
    byteSize (encode_cell expF sigmoidF ranges has_sh svs).2 =
      (if has_sh then 64 else 0) * svs.length := by
  have h := encode_cell_fold_sizes expF sigmoidF ranges has_sh svs ([], [])
  unfold encode_cell
  constructor
  · rw [h.1]
    simp [byteSize]
  · rw [h.2]
    simp [byteSize]

theorem sum_map_mul_const {α : Type} (k : ℕ) (f : α → ℕ) :
    ∀ l : List α, (l.map fun a => k * f a).sum = k * (l.map f).sum
  | [] => by simp
  | a :: l => by
    simp only [List.map_cons, List.sum_cons, sum_map_mul_const k f l]
    ring

/-- C7: whenever every cell blob was produced by the per-cell encoding
loop, the bytes of `data.bin` are exactly 32 per written splat, and in
Quality mode the bytes of `shcoef.bin` are exactly 64 per written splat,
so `|data.bin|/32 = |shcoef.bin|/64`. -/
theorem C7_record_sizes (d : LccData)
    (henc : ∀ c ∈ d.cells, ∃ (expF sigmoidF : ℚ → ℚ) (ranges : AttributeRanges)
      (svs : List SplatView),
      c.data = (encode_cell expF sigmoidF ranges d.has_sh svs).1 ∧
      c.shcoef = (encode_cell expF sigmoidF ranges d.has_sh svs).2 ∧
      c.count = svs.length) :
    byteSize (dataBin d) = 32 * totalSplatsWritten d ∧
    (d.has_sh = true →
      byteSize (shcoefBin d) = 64 * totalSplatsWritten d ∧
      byteSize (dataBin d) / 32 = byteSize (shcoefBin d) / 64) := by
  have hsize : ∀ c ∈ d.cells, byteSize c.data = 32 * c.count ∧
      (d.has_sh = true → byteSize c.shcoef = 64 * c.count) := by
    intro c hc
    obtain ⟨eF, sF, rg, svs, h1, h2, h3⟩ := henc c hc
    have hs := encode_cell_sizes eF sF rg d.has_sh svs
    refine ⟨by rw [h1, hs.1, h3], fun hsh => ?_⟩
    rw [h2, hs.2, h3, hsh]
    simp
  have hdata : byteSize (dataBin d) = 32 * totalSplatsWritten d := by
    unfold dataBin totalSplatsWritten
    rw [byteSize_flatMap]
    have hmap : (d.cells.filter fun c => c.count != 0).map (fun c => byteSize c.data) =
        (d.cells.filter fun c => c.count != 0).map (fun c => 32 * c.count) :=
      List.map_congr_left (fun c hc => (hsize c (List.mem_of_mem_filter hc)).1)
    rw [hmap, sum_map_mul_const 32 (fun c : EncodedCellData => c.count)]
  refine ⟨hdata, fun hsh => ?_⟩
  have hfilter : d.cells.filter (fun c => c.count != 0 && !c.shcoef.isEmpty) =
      d.cells.filter (fun c => c.count != 0) := by
    apply List.filter_congr
    intro c hc
    obtain ⟨h1, h2⟩ := hsize c hc
    by_cases h0 : c.count = 0
    · simp [h0]
    · have : 0 < byteSize c.shcoef := by
        rw [h2 hsh]
        omega
      have hne : c.shcoef ≠ [] := by
        intro hcon
        rw [hcon] at this
        simp [byteSize] at this
      simp [h0, List.isEmpty_iff, hne]
  have hsh2 : byteSize (shcoefBin d) = 64 * totalSplatsWritten d := by
    unfold shcoefBin totalSplatsWritten
    rw [if_pos hsh, hfilter, byteSize_flatMap]
    have hmap : (d.cells.filter fun c => c.count != 0).map (fun c => byteSize c.shcoef) =
        (d.cells.filter fun c => c.count != 0).map (fun c => 64 * c.count) :=
      List.map_congr_left (fun c hc => (hsize c (List.mem_of_mem_filter hc)).2 hsh)
    rw [hmap, sum_map_mul_const 64 (fun c : EncodedCellData => c.count)]
  refine ⟨hsh2, ?_⟩
  rw [hdata, hsh2, Nat.mul_div_cancel_left _ (by norm_num),
    Nat.mul_div_cancel_left _ (by norm_num)]

/-- Witness for C7 on a one-cell Quality-mode output. -/
theorem C7_record_sizes_witness :
    byteSize (dataBin wData) = 32 * totalSplatsWritten wData ∧
    (wData.has_sh = true →
      byteSize (shcoefBin wData) = 64 * totalSplatsWritten wData ∧
      byteSize (dataBin wData) / 32 = byteSize (shcoefBin wData) / 64) := by
  apply C7_record_sizes
  intro c hc
  have hceq : c = ⟨5, 0, 1, (encode_cell id id cexRanges true [svA]).1,
      (encode_cell id id cexRanges true [svA]).2⟩ := by
    simpa [wData] using hc
  subst hceq
  exact ⟨id, id, cexRanges, [svA], rfl, rfl, rfl⟩

theorem cellLt_iff (a b : EncodedCellData) : cellLt a b = true ↔ keyLt a b := by
  unfold cellLt keyLt
  split_ifs with h1 h2 <;> simp only [decide_eq_true_eq] <;> omega

theorem cellLe_iff (a b : EncodedCellData) : cellLe a b = true ↔ ¬ keyLt b a := by
  unfold cellLe
  cases h : cellLt b a
  · simp only [Bool.not_false]
    exact iff_of_true trivial fun hk => by
      rw [(cellLt_iff b a).mpr hk] at h
      exact Bool.noConfusion h
  · simp only [Bool.not_true]
    exact iff_of_false Bool.false_ne_true (not_not_intro ((cellLt_iff b a).mp h))

theorem cellLe_trans (a b c : EncodedCellData) (hab : cellLe a b = true)
    (hbc : cellLe b c = true) : cellLe a c = true := by
  rw [cellLe_iff] at hab hbc ⊢
  unfold keyLt at hab hbc ⊢
  omega

theorem cellLe_total (a b : EncodedCellData) : (cellLe a b || cellLe b a) = true := by
  rw [Bool.or_eq_true, cellLe_iff, cellLe_iff]
  unfold keyLt
  omega

theorem sorted_cells_pairwise (d : LccData)
    (hnd : (d.cells.map fun c => (c.cell_id, c.lod)).Nodup)
    (hid : ∀ c ∈ d.cells, c.cell_id < UINT32_MAX) :
    (sort_cells d).cells.Pairwise keyLt := by
  have hperm := List.mergeSort_perm d.cells cellLe
  have hsorted := List.sorted_mergeSort cellLe_trans cellLe_total d.cells
  have hnd2 : ((d.cells.mergeSort cellLe).map fun c => (c.cell_id, c.lod)).Nodup :=
    ((hperm.map fun c => (c.cell_id, c.lod)).nodup_iff).mpr hnd
  have hne : (d.cells.mergeSort cellLe).Pairwise
      (fun a b => (a.cell_id, a.lod) ≠ (b.cell_id, b.lod)) :=
    List.pairwise_map.mp hnd2
  show (d.cells.mergeSort cellLe).Pairwise keyLt
  refine List.Pairwise.imp_of_mem ?_ (hsorted.and hne)
  intro a b ha hb hR
  have ha' : a.cell_id < UINT32_MAX := hid a (hperm.subset ha)
  have hb' : b.cell_id < UINT32_MAX := hid b (hperm.subset hb)
  obtain ⟨hle, hpair⟩ := hR
  rw [cellLe_iff] at hle
  have hor : a.cell_id ≠ b.cell_id ∨ a.lod ≠ b.lod := by
    by_contra hcon
    push_neg at hcon
    exact hpair (by rw [hcon.1, hcon.2])
  unfold keyLt at hle ⊢
  unfold cellKeyX cellKeyY at hle ⊢
  unfold UINT32_MAX at ha' hb'
  omega

theorem keyLt_ne_idLtXY {a b : EncodedCellData} (ha : a.cell_id < UINT32_MAX)
    (hb : b.cell_id < UINT32_MAX) (hk : keyLt a b) (hne : b.cell_id ≠ a.cell_id) :
    idLtXY a.cell_id b.cell_id := by
  unfold keyLt at hk
  unfold idLtXY
  unfold cellKeyX cellKeyY at hk ⊢
  unfold UINT32_MAX at ha hb
  omega

theorem indexEntries_append (l1 l2 : List LccUnitInfo) :
    indexEntries (l1 ++ l2) = indexEntries l1 ++ indexEntries l2 := by
  unfold indexEntries
  rw [List.flatMap_append, List.filter_append]

theorem indexEntries_singleton (u : LccUnitInfo) :
    indexEntries [u] = u.lods.filter fun nd => nd.splat_count != 0 := by
  unfold indexEntries
  simp

theorem filter_set_of_unassigned (p : LccNodeInfo → Bool) :
    ∀ (l : List LccNodeInfo) (j : ℕ), j < l.length →
      (∀ k nd, j ≤ k → l.get? k = some nd → p nd = false) →
      ∀ node, p node = true →
        (l.set j node).filter p = l.filter p ++ [node] := by
  intro l
  induction l with
  | nil => intro j hj; simp at hj
  | cons x xs ih =>
    intro j hj hun node hp
    cases j with
    | zero =>
      have hx : p x = false := hun 0 x (Nat.le_refl 0) rfl
      have hxs : xs.filter p = [] := by
        rw [List.filter_eq_nil_iff]
        intro a ha
        obtain ⟨k, hk⟩ := List.get?_of_mem ha
        have hpa : p a = false := by
          refine hun (k + 1) a (Nat.zero_le _) ?_
          rw [List.get?_cons_succ]
          exact hk
        simp [hpa]
      rw [List.set_cons_zero, List.filter_cons_of_pos hp,
        List.filter_cons_of_neg (by simp [hx]), hxs]
      rfl
    | succ j =>
      have hlen : j < xs.length := by simpa using hj
      have hun' : ∀ k nd, j ≤ k → xs.get? k = some nd → p nd = false := by
        intro k nd hk hget
        refine hun (k + 1) nd (by omega) ?_
        rw [List.get?_cons_succ]
        exact hget
      have ihx := ih j hlen hun' node hp
      rw [List.set_cons_succ]
      cases hx : p x
      · rw [List.filter_cons_of_neg (by simp [hx]),
          List.filter_cons_of_neg (by simp [hx]), ihx]
      · rw [List.filter_cons_of_pos hx, List.filter_cons_of_pos hx, ihx]
        rfl

theorem filter_replicate_default (p : LccNodeInfo → Bool) (hp : p defaultNode = false)
    (n : ℕ) : (List.replicate n defaultNode).filter p = [] := by
  rw [List.filter_eq_nil_iff]
  intro a ha
  rw [List.eq_of_mem_replicate ha]
  simp [hp]

theorem cumEntries_head_offset (hshb : Bool) (dOff shOff : ℕ)
    (cs : List EncodedCellData) (e : LccNodeInfo)
    (h : (cumEntries hshb dOff shOff cs).head? = some e) : e.data_offset = dOff := by
  cases cs with
  | nil => simp [cumEntries] at h
  | cons c cs =>
    simp only [cumEntries, List.head?_cons, Option.some.injEq] at h
    subst h
    rfl

theorem cumEntries_chain (hshb : Bool) :
    ∀ (dOff shOff : ℕ) (cs : List EncodedCellData),
      (cumEntries hshb dOff shOff cs).Chain'
        fun a b => a.data_offset + a.data_size = b.data_offset
  | _, _, [] => List.chain'_nil
  | dOff, shOff, c :: cs => by
    simp only [cumEntries]
    rw [List.chain'_cons']
    refine ⟨?_, cumEntries_chain hshb _ _ cs⟩
    intro y hy
    rw [Option.mem_def] at hy
    rw [cumEntries_head_offset hshb _ _ cs y hy]
    rfl

theorem cumEntries_sizes (hshb : Bool) :
    ∀ (dOff shOff : ℕ) (cs : List EncodedCellData),
      ((cumEntries hshb dOff shOff cs).map (fun e => e.data_size)).sum =
        (cs.map fun c => byteSize c.data).sum
  | _, _, [] => rfl
  | dOff, shOff, c :: cs => by
    simp only [cumEntries, List.map_cons, List.sum_cons]
    rw [cumEntries_sizes hshb _ _ cs]
    rfl

theorem newIds_head : ∀ (cs : List EncodedCellData) (curId y : ℕ),
    (newIds curId cs).head? = some y → y ≠ curId ∧ ∃ c ∈ cs, c.cell_id = y
  | [], _, _ => by
    intro h
    simp [newIds] at h
  | c :: cs, curId, y => by
    intro h
    simp only [newIds] at h
    by_cases hc : c.cell_id = curId
    · rw [if_pos hc] at h
      obtain ⟨hy, c', hc', hcy⟩ := newIds_head cs curId y h
      exact ⟨hy, c', List.mem_cons_of_mem _ hc', hcy⟩
    · rw [if_neg hc] at h
      rw [List.head?_cons, Option.some.injEq] at h
      subst h
      exact ⟨hc, c, List.mem_cons_self _ _, rfl⟩

theorem newIds_chain : ∀ (cs : List EncodedCellData) (curId : ℕ),
    cs.Pairwise keyLt → (∀ c ∈ cs, c.cell_id < UINT32_MAX) →
    (newIds curId cs).Chain' idLtXY
  | [], _, _, _ => List.chain'_nil
  | c :: cs, curId, hpw, hid => by
    obtain ⟨hhead, htail⟩ := List.pairwise_cons.mp hpw
    have hid' : ∀ c' ∈ cs, c'.cell_id < UINT32_MAX :=
      fun c' h => hid c' (List.mem_cons_of_mem _ h)
    simp only [newIds]
    by_cases hc : c.cell_id = curId
    · rw [if_pos hc]
      exact newIds_chain cs curId htail hid'
    · rw [if_neg hc]
      rw [List.chain'_cons']
      refine ⟨?_, newIds_chain cs c.cell_id htail hid'⟩
      intro y hy
      rw [Option.mem_def] at hy
      obtain ⟨hyne, c', hc', hcy⟩ := newIds_head cs c.cell_id y hy
      subst hcy
      exact keyLt_ne_idLtXY (hid c (List.mem_cons_self _ _)) (hid' c' hc')
        (hhead c' hc') hyne

theorem buildIndexAux_skip (n : ℕ) (hshb : Bool) :
    ∀ (cs : List EncodedCellData) (revUnits : List LccUnitInfo) (curId dOff shOff : ℕ),
      buildIndexAux n hshb cs revUnits curId dOff shOff =
        buildIndexAux n hshb (cs.filter fun c => c.count != 0) revUnits curId dOff shOff
  | [], _, _, _, _ => rfl
  | c :: cs, revUnits, curId, dOff, shOff => by
    by_cases hc0 : c.count = 0
    · rw [List.filter_cons_of_neg (by simp [hc0])]
      have h1 : buildIndexAux n hshb (c :: cs) revUnits curId dOff shOff =
          buildIndexAux n hshb cs revUnits curId dOff shOff := by
        simp only [buildIndexAux]
        rw [if_pos hc0]
      rw [h1]
      exact buildIndexAux_skip n hshb cs revUnits curId dOff shOff
    · rw [List.filter_cons_of_pos (by simp [hc0])]
      simp only [buildIndexAux]
      rw [if_neg hc0, if_neg hc0]
      exact buildIndexAux_skip n hshb cs _ _ _ _

theorem buildIndexAux_spec (n : ℕ) (hshb : Bool) :
    ∀ (cs : List EncodedCellData) (revUnits : List LccUnitInfo) (curId dOff shOff : ℕ),
      (∀ c ∈ cs, c.count ≠ 0) →
      cs.Pairwise keyLt →
      (∀ c ∈ cs, c.lod < n) →
      Compat revUnits curId n cs →
      indexEntries (buildIndexAux n hshb cs revUnits curId dOff shOff).1.reverse =
        indexEntries revUnits.reverse ++ cumEntries hshb dOff shOff cs ∧
      (buildIndexAux n hshb cs revUnits curId dOff shOff).1.reverse.map
          (fun w => w.index) =
        revUnits.reverse.map (fun w => w.index) ++ newIds curId cs
  | [], revUnits, curId, dOff, shOff => by
    intro _ _ _ _
    simp [buildIndexAux, cumEntries, newIds]
  | c :: cs, revUnits, curId, dOff, shOff => by
    intro hcnt hpw hlod hcompat
    obtain ⟨hhead, htail⟩ := List.pairwise_cons.mp hpw
    have hc0 : c.count ≠ 0 := hcnt c (List.mem_cons_self _ _)
    have hcnt' : ∀ c' ∈ cs, c'.count ≠ 0 := fun c' h => hcnt c' (List.mem_cons_of_mem _ h)
    have hlodc : c.lod < n := hlod c (List.mem_cons_self _ _)
    have hlod' : ∀ c' ∈ cs, c'.lod < n := fun c' h => hlod c' (List.mem_cons_of_mem _ h)
    by_cases hid : c.cell_id = curId
    · subst hid
      cases revUnits with
      | nil => exact absurd rfl (hcompat c (List.mem_cons_self _ _))
      | cons u rest =>
        obtain ⟨hui, hulen, huassigned⟩ := hcompat
        have hstep : buildIndexAux n hshb (c :: cs) (u :: rest) c.cell_id dOff shOff =
            buildIndexAux n hshb cs
              ((⟨u.index, u.lods.set c.lod (mkNodeInfo hshb dOff shOff c)⟩ : LccUnitInfo) :: rest)
              c.cell_id (dOff + byteSize c.data)
              (if hshb && !c.shcoef.isEmpty then shOff + byteSize c.shcoef else shOff) := by
          simp only [buildIndexAux]
          rw [if_neg hc0, if_neg (not_not_intro rfl)]
        have hcompat' : Compat
            ((⟨u.index, u.lods.set c.lod (mkNodeInfo hshb dOff shOff c)⟩ : LccUnitInfo) :: rest)
            c.cell_id n cs := by
          refine ⟨hui, by rw [List.length_set]; exact hulen, ?_⟩
          intro j node' hget hsc c' hc' hcid'
          by_cases hj : j = c.lod
          · subst hj
            have hk := hhead c' hc'
            unfold keyLt at hk
            rw [hcid'] at hk
            omega
          · have hx := List.get?_set_ne (mkNodeInfo hshb dOff shOff c) u.lods (Ne.symm hj)
            rw [hx] at hget
            exact huassigned j node' hget hsc c' (List.mem_cons_of_mem _ hc') hcid'
        obtain ⟨ih1, ih2⟩ := buildIndexAux_spec n hshb cs
          ((⟨u.index, u.lods.set c.lod (mkNodeInfo hshb dOff shOff c)⟩ : LccUnitInfo) :: rest)
          c.cell_id (dOff + byteSize c.data)
          (if hshb && !c.shcoef.isEmpty then shOff + byteSize c.shcoef else shOff)
          hcnt' htail hlod' hcompat'
        have hu_single : indexEntries [(⟨u.index, u.lods.set c.lod
            (mkNodeInfo hshb dOff shOff c)⟩ : LccUnitInfo)] =
            u.lods.filter (fun nd => nd.splat_count != 0) ++
              [mkNodeInfo hshb dOff shOff c] := by
          rw [indexEntries_singleton,
            show ((⟨u.index, u.lods.set c.lod (mkNodeInfo hshb dOff shOff c)⟩ : LccUnitInfo)).lods =
              u.lods.set c.lod (mkNodeInfo hshb dOff shOff c) from rfl]
          refine filter_set_of_unassigned (fun nd => nd.splat_count != 0) u.lods c.lod
            (by rw [hulen]; exact hlodc) ?_ _ (by simp [mkNodeInfo, hc0])
          intro k nd hk hget
          by_cases hz : nd.splat_count = 0
          · simp [hz]
          · exact absurd (huassigned k nd hget hz c (List.mem_cons_self _ _) rfl)
              (by omega)
        have hu_entries : indexEntries ((⟨u.index, u.lods.set c.lod
            (mkNodeInfo hshb dOff shOff c)⟩ : LccUnitInfo) :: rest).reverse =
            indexEntries (u :: rest).reverse ++ [mkNodeInfo hshb dOff shOff c] := by
          rw [List.reverse_cons, List.reverse_cons, indexEntries_append,
            indexEntries_append, hu_single, indexEntries_singleton, List.append_assoc]
        refine ⟨?_, ?_⟩
        · rw [hstep, ih1, hu_entries]
          simp only [cumEntries]
          rw [List.append_assoc]
          rfl
        · rw [hstep, ih2]
          have hmap : ((⟨u.index, u.lods.set c.lod (mkNodeInfo hshb dOff shOff c)⟩ : LccUnitInfo) ::
              rest).reverse.map (fun w => w.index) =
              (u :: rest).reverse.map (fun w => w.index) := by
            rw [List.reverse_cons, List.reverse_cons, List.map_append, List.map_append]
            rfl
          rw [hmap]
          simp only [newIds]
          rw [if_pos trivial]
    · have hstep : buildIndexAux n hshb (c :: cs) revUnits curId dOff shOff =
          buildIndexAux n hshb cs
            (⟨c.cell_id, (List.replicate n defaultNode).set c.lod
                (mkNodeInfo hshb dOff shOff c)⟩ :: revUnits)
            c.cell_id (dOff + byteSize c.data)
            (if hshb && !c.shcoef.isEmpty then shOff + byteSize c.shcoef else shOff) := by
        simp only [buildIndexAux]
        rw [if_neg hc0, if_pos hid]
      have hcompat' : Compat
          (⟨c.cell_id, (List.replicate n defaultNode).set c.lod
              (mkNodeInfo hshb dOff shOff c)⟩ :: revUnits) c.cell_id n cs := by
        refine ⟨rfl, by rw [List.length_set, List.length_replicate], ?_⟩
        intro j node' hget hsc c' hc' hcid'
        by_cases hj : j = c.lod
        · subst hj
          have hk := hhead c' hc'
          unfold keyLt at hk
          rw [hcid'] at hk
          omega
        · have hx := List.get?_set_ne (mkNodeInfo hshb dOff shOff c)
            (List.replicate n defaultNode) (Ne.symm hj)
          rw [hx] at hget
          have hnd : node' = defaultNode :=
            List.eq_of_mem_replicate (List.get?_mem hget)
          rw [hnd] at hsc
          exact absurd rfl hsc
      obtain ⟨ih1, ih2⟩ := buildIndexAux_spec n hshb cs
        (⟨c.cell_id, (List.replicate n defaultNode).set c.lod
            (mkNodeInfo hshb dOff shOff c)⟩ :: revUnits)
        c.cell_id (dOff + byteSize c.data)
        (if hshb && !c.shcoef.isEmpty then shOff + byteSize c.shcoef else shOff)
        hcnt' htail hlod' hcompat'
      have hu_single : indexEntries
          [(⟨c.cell_id, (List.replicate n defaultNode).set c.lod
              (mkNodeInfo hshb dOff shOff c)⟩ : LccUnitInfo)] =
          [mkNodeInfo hshb dOff shOff c] := by
        have hfs := filter_set_of_unassigned (fun nd => nd.splat_count != 0)
          (List.replicate n defaultNode) c.lod
          (by rw [List.length_replicate]; exact hlodc)
          (fun k nd hk hget => by
            rw [List.eq_of_mem_replicate (List.get?_mem hget)]
            rfl)
          (mkNodeInfo hshb dOff shOff c) (by simp [mkNodeInfo, hc0])
        rw [indexEntries_singleton,
          show (⟨c.cell_id, (List.replicate n defaultNode).set c.lod
              (mkNodeInfo hshb dOff shOff c)⟩ : LccUnitInfo).lods =
            (List.replicate n defaultNode).set c.lod (mkNodeInfo hshb dOff shOff c) from rfl,
          hfs, filter_replicate_default (fun nd => nd.splat_count != 0) rfl n]
        rfl
      refine ⟨?_, ?_⟩
      · rw [hstep, ih1, List.reverse_cons, indexEntries_append, hu_single]
        simp only [cumEntries]
        rw [List.append_assoc]
        rfl
      · rw [hstep, ih2, List.reverse_cons, List.map_append]
        simp only [newIds]
        rw [if_neg hid, List.append_assoc]
        rfl

/-- C3: after `sort_cells` the encoded blobs are in strictly increasing
`(cell_x, cell_y, lod)` order, and the index built from them in that order
is cumulative: the first data-carrying LOD entry has data offset 0, each
entry's offset plus size equals the next entry's offset, offsets are
monotonically non-decreasing, the entry sizes sum to the size of
`data.bin`, and the unit cell ids are strictly increasing under the
`(cell_x, cell_y)` comparator.  Hypotheses: every blob's LOD is below
`num_lods`, the `(cell_id, lod)` pairs are distinct, and every id is a
packed 32-bit value below the `UINT32_MAX` sentinel. -/
theorem C3_sorted_cumulative_index (d : LccData)
    (hlod : ∀ c ∈ d.cells, c.lod < d.num_lods)
    (hnd : (d.cells.map fun c => (c.cell_id, c.lod)).Nodup)
    (hid : ∀ c ∈ d.cells, c.cell_id < UINT32_MAX) :
    (sort_cells d).cells.Pairwise keyLt ∧
    (∀ e, (indexEntries (build_index (sort_cells d) 0 0).1).head? = some e →
      e.data_offset = 0) ∧
    (indexEntries (build_index (sort_cells d) 0 0).1).Chain'
      (fun a b => a.data_offset + a.data_size = b.data_offset) ∧
    (indexEntries (build_index (sort_cells d) 0 0).1).Chain'
      (fun a b => a.data_offset ≤ b.data_offset) ∧
    ((indexEntries (build_index (sort_cells d) 0 0).1).map
      (fun e => e.data_size)).sum = byteSize (dataBin (sort_cells d)) ∧
    ((build_index (sort_cells d) 0 0).1.map (fun w => w.index)).Chain' idLtXY := by
  have hkey : (sort_cells d).cells.Pairwise keyLt := sorted_cells_pairwise d hnd hid
  have hperm : (sort_cells d).cells.Perm d.cells := List.mergeSort_perm d.cells cellLe
  have hlod1 : ∀ c ∈ (sort_cells d).cells, c.lod < d.num_lods :=
    fun c hc => hlod c (hperm.subset hc)
  have hid1 : ∀ c ∈ (sort_cells d).cells, c.cell_id < UINT32_MAX :=
    fun c hc => hid c (hperm.subset hc)
  have hsub : ((sort_cells d).cells.filter fun c => c.count != 0).Sublist
      (sort_cells d).cells := List.filter_sublist _
  have hpw' : ((sort_cells d).cells.filter fun c => c.count != 0).Pairwise keyLt :=
    List.Pairwise.sublist hsub hkey
  have hcnt' : ∀ c ∈ (sort_cells d).cells.filter fun c => c.count != 0, c.count ≠ 0 := by
    intro c hc
    have := List.of_mem_filter hc
    simpa using this
  have hlod' : ∀ c ∈ (sort_cells d).cells.filter fun c => c.count != 0,
      c.lod < d.num_lods := fun c hc => hlod1 c (hsub.subset hc)
  have hid' : ∀ c ∈ (sort_cells d).cells.filter fun c => c.count != 0,
      c.cell_id < UINT32_MAX := fun c hc => hid1 c (hsub.subset hc)
  have hcompat : Compat [] UINT32_MAX d.num_lods
      ((sort_cells d).cells.filter fun c => c.count != 0) :=
    fun c hc => Nat.ne_of_lt (hid' c hc)
  obtain ⟨hE, hI⟩ := buildIndexAux_spec d.num_lods d.has_sh
    ((sort_cells d).cells.filter fun c => c.count != 0) [] UINT32_MAX 0 0
    hcnt' hpw' hlod' hcompat
  have hbi : (build_index (sort_cells d) 0 0).1 =
      (buildIndexAux d.num_lods d.has_sh
        ((sort_cells d).cells.filter fun c => c.count != 0) [] UINT32_MAX 0 0).1.reverse := by
    have h0 : (build_index (sort_cells d) 0 0).1 =
        (buildIndexAux d.num_lods d.has_sh (sort_cells d).cells
          [] UINT32_MAX 0 0).1.reverse := rfl
    rw [h0, buildIndexAux_skip]
  have hentries : indexEntries (build_index (sort_cells d) 0 0).1 =
      cumEntries d.has_sh 0 0 ((sort_cells d).cells.filter fun c => c.count != 0) := by
    rw [hbi, hE]
    simp [indexEntries]
  have hids : (build_index (sort_cells d) 0 0).1.map (fun w => w.index) =
      newIds UINT32_MAX ((sort_cells d).cells.filter fun c => c.count != 0) := by
    rw [hbi, hI]
    simp
  refine ⟨hkey, ?_, ?_, ?_, ?_, ?_⟩
  · intro e he
    rw [hentries] at he
    exact cumEntries_head_offset d.has_sh 0 0 _ e he
  · rw [hentries]
    exact cumEntries_chain d.has_sh 0 0 _
  · rw [hentries]
    exact List.Chain'.imp (fun a b h => by omega) (cumEntries_chain d.has_sh 0 0 _)
  · rw [hentries, cumEntries_sizes]
    rw [show dataBin (sort_cells d) =
      ((sort_cells d).cells.filter fun c => c.count != 0).flatMap (fun c => c.data)
      from rfl]
    rw [byteSize_flatMap]
  · rw [hids]
    exact newIds_chain _ UINT32_MAX hpw' hid'

/-- Witness for C3 on the three-blob `wIdx` data. -/
theorem C3_sorted_cumulative_index_witness :
    ((∀ c ∈ wIdx.cells, c.lod < wIdx.num_lods) ∧
      (wIdx.cells.map fun c => (c.cell_id, c.lod)).Nodup ∧
      (∀ c ∈ wIdx.cells, c.cell_id < UINT32_MAX)) ∧
    ((sort_cells wIdx).cells.Pairwise keyLt ∧
      (∀ e, (indexEntries (build_index (sort_cells wIdx) 0 0).1).head? = some e →
        e.data_offset = 0) ∧
      (indexEntries (build_index (sort_cells wIdx) 0 0).1).Chain'
        (fun a b => a.data_offset + a.data_size = b.data_offset) ∧
      (indexEntries (build_index (sort_cells wIdx) 0 0).1).Chain'
        (fun a b => a.data_offset ≤ b.data_offset) ∧
      ((indexEntries (build_index (sort_cells wIdx) 0 0).1).map
        (fun e => e.data_size)).sum = byteSize (dataBin (sort_cells wIdx)) ∧
      ((build_index (sort_cells wIdx) 0 0).1.map (fun w => w.index)).Chain' idLtXY) :=
  ⟨⟨by decide, by decide, by decide⟩,
    C3_sorted_cumulative_index wIdx (by decide) (by decide) (by decide)⟩

theorem foldl_min_le_init : ∀ (l : List ℚ) (i : ℚ), l.foldl min i ≤ i
  | [], i => le_refl i
  | x :: l, i => le_trans (foldl_min_le_init l (min i x)) (min_le_left i x)

theorem foldl_min_le_mem : ∀ (l : List ℚ) (i x : ℚ), x ∈ l → l.foldl min i ≤ x
  | [], _, _, h => absurd h (List.not_mem_nil _)
  | y :: l, i, x, h => by
    rcases List.mem_cons.mp h with rfl | h2
    · exact le_trans (foldl_min_le_init l (min i x)) (min_le_right i x)
    · exact foldl_min_le_mem l (min i y) x h2

theorem le_foldl_min : ∀ (l : List ℚ) (i c : ℚ), c ≤ i → (∀ x ∈ l, c ≤ x) →
    c ≤ l.foldl min i
  | [], _, _, hi, _ => hi
  | y :: l, i, c, hi, hl =>
    le_foldl_min l (min i y) c (le_min hi (hl y (List.mem_cons_self _ _)))
      (fun x hx => hl x (List.mem_cons_of_mem _ hx))

theorem init_le_foldl_max : ∀ (l : List ℚ) (i : ℚ), i ≤ l.foldl max i
  | [], i => le_refl i
  | x :: l, i => le_trans (le_max_left i x) (init_le_foldl_max l (max i x))

theorem mem_le_foldl_max : ∀ (l : List ℚ) (i x : ℚ), x ∈ l → x ≤ l.foldl max i
  | [], _, _, h => absurd h (List.not_mem_nil _)
  | y :: l, i, x, h => by
    rcases List.mem_cons.mp h with rfl | h2
    · exact le_trans (le_max_right i x) (init_le_foldl_max l (max i x))
    · exact mem_le_foldl_max l (max i y) x h2

theorem foldl_max_le : ∀ (l : List ℚ) (i c : ℚ), i ≤ c → (∀ x ∈ l, x ≤ c) →
    l.foldl max i ≤ c
  | [], _, _, hi, _ => hi
  | y :: l, i, c, hi, hl =>
    foldl_max_le l (max i y) c (max_le hi (hl y (List.mem_cons_self _ _)))
      (fun x hx => hl x (List.mem_cons_of_mem _ hx))

theorem segMinQ_le_mem (verts : List (Fin 3 → ℚ)) (faces : List Triangle)
    {seg : List ℕ} {idx : ℕ} (h : idx ∈ seg) (a : Fin 3) :
    segMinQ verts faces seg a ≤ triMin verts (faceAt faces idx) a :=
  foldl_min_le_mem _ _ _ (List.mem_map_of_mem _ h)

theorem mem_le_segMaxQ (verts : List (Fin 3 → ℚ)) (faces : List Triangle)
    {seg : List ℕ} {idx : ℕ} (h : idx ∈ seg) (a : Fin 3) :
    triMax verts (faceAt faces idx) a ≤ segMaxQ verts faces seg a :=
  mem_le_foldl_max _ _ _ (List.mem_map_of_mem _ h)

theorem segMinQ_mono (verts : List (Fin 3 → ℚ)) (faces : List Triangle)
    {s1 s2 : List ℕ} (h : ∀ x ∈ s1, x ∈ s2) (a : Fin 3) :
    segMinQ verts faces s2 a ≤ segMinQ verts faces s1 a := by
  unfold segMinQ
  refine le_foldl_min _ _ _ (foldl_min_le_init _ _) ?_
  intro y hy
  obtain ⟨idx, hidx, rfl⟩ := List.mem_map.mp hy
  simpa [segMinQ] using segMinQ_le_mem verts faces (h idx hidx) a

theorem segMaxQ_mono (verts : List (Fin 3 → ℚ)) (faces : List Triangle)
    {s1 s2 : List ℕ} (h : ∀ x ∈ s1, x ∈ s2) (a : Fin 3) :
    segMaxQ verts faces s1 a ≤ segMaxQ verts faces s2 a := by
  unfold segMaxQ
  refine foldl_max_le _ _ _ (init_le_foldl_max _ _) ?_
  intro y hy
  obtain ⟨idx, hidx, rfl⟩ := List.mem_map.mp hy
  simpa [segMaxQ] using mem_le_segMaxQ verts faces (h idx hidx) a

theorem triMin_le_v0 (verts : List (Fin 3 → ℚ)) (t : Triangle) (a : Fin 3) :
    triMin verts t a ≤ vertAt verts t.v0 a :=
  le_trans (min_le_left _ _) (min_le_left _ _)

theorem triMin_le_v1 (verts : List (Fin 3 → ℚ)) (t : Triangle) (a : Fin 3) :
    triMin verts t a ≤ vertAt verts t.v1 a :=
  le_trans (min_le_left _ _) (min_le_right _ _)

theorem triMin_le_v2 (verts : List (Fin 3 → ℚ)) (t : Triangle) (a : Fin 3) :
    triMin verts t a ≤ vertAt verts t.v2 a :=
  min_le_right _ _

theorem v0_le_triMax (verts : List (Fin 3 → ℚ)) (t : Triangle) (a : Fin 3) :
    vertAt verts t.v0 a ≤ triMax verts t a :=
  le_trans (le_max_left _ _) (le_max_left _ _)

theorem v1_le_triMax (verts : List (Fin 3 → ℚ)) (t : Triangle) (a : Fin 3) :
    vertAt verts t.v1 a ≤ triMax verts t a :=
  le_trans (le_max_right _ _) (le_max_left _ _)

theorem v2_le_triMax (verts : List (Fin 3 → ℚ)) (t : Triangle) (a : Fin 3) :
    vertAt verts t.v2 a ≤ triMax verts t a :=
  le_max_right _ _

theorem tri_in_seg_box (verts : List (Fin 3 → ℚ)) (faces : List Triangle)
    {seg : List ℕ} {idx : ℕ} (h : idx ∈ seg) {nd : BVHNode}
    (hb : ∀ a, nd.bbox_min a = segMinQ verts faces seg a ∧
      nd.bbox_max a = segMaxQ verts faces seg a) :
    triInBox verts (faceAt faces idx) nd := by
  refine ⟨fun a => ⟨?_, ?_⟩, fun a => ⟨?_, ?_⟩, fun a => ⟨?_, ?_⟩⟩
  · rw [(hb a).1]
    exact le_trans (segMinQ_le_mem verts faces h a) (triMin_le_v0 _ _ _)
  · rw [(hb a).2]
    exact le_trans (v0_le_triMax _ _ _) (mem_le_segMaxQ verts faces h a)
  · rw [(hb a).1]
    exact le_trans (segMinQ_le_mem verts faces h a) (triMin_le_v1 _ _ _)
  · rw [(hb a).2]
    exact le_trans (v1_le_triMax _ _ _) (mem_le_segMaxQ verts faces h a)
  · rw [(hb a).1]
    exact le_trans (segMinQ_le_mem verts faces h a) (triMin_le_v2 _ _ _)
  · rw [(hb a).2]
    exact le_trans (v2_le_triMax _ _ _) (mem_le_segMaxQ verts faces h a)

theorem boxLE_of_sub (verts : List (Fin 3 → ℚ)) (faces : List Triangle)
    {s1 s2 : List ℕ} (h : ∀ x ∈ s1, x ∈ s2) {inner outer : BVHNode}
    (hi : ∀ a, inner.bbox_min a = segMinQ verts faces s1 a ∧
      inner.bbox_max a = segMaxQ verts faces s1 a)
    (ho : ∀ a, outer.bbox_min a = segMinQ verts faces s2 a ∧
      outer.bbox_max a = segMaxQ verts faces s2 a) :
    boxLE inner outer := by
  intro a
  rw [(hi a).1, (hi a).2, (ho a).1, (ho a).2]
  exact ⟨segMinQ_mono verts faces h a, segMaxQ_mono verts faces h a⟩

theorem triInBox_mono {verts : List (Fin 3 → ℚ)} {t : Triangle} {c nd : BVHNode}
    (hle : boxLE c nd) (h : triInBox verts t c) : triInBox verts t nd := by
  obtain ⟨h0, h1, h2⟩ := h
  exact ⟨fun a => ⟨le_trans (hle a).1 (h0 a).1, le_trans (h0 a).2 (hle a).2⟩,
    fun a => ⟨le_trans (hle a).1 (h1 a).1, le_trans (h1 a).2 (hle a).2⟩,
    fun a => ⟨le_trans (hle a).1 (h2 a).1, le_trans (h2 a).2 (hle a).2⟩⟩

theorem modify_append_mid (f : BVHNode → BVHNode) :
    ∀ (A : List BVHNode) (x : BVHNode) (B : List BVHNode),
      List.modify f A.length (A ++ x :: B) = A ++ f x :: B
  | [], x, B => by simp [List.modify]
  | a :: A, x, B => by
    simp only [List.length_cons, List.cons_append]
    rw [show List.modify f (A.length + 1) (a :: (A ++ x :: B)) =
      a :: List.modify f A.length (A ++ x :: B) from by simp [List.modify]]
    rw [modify_append_mid f A x B]

theorem fixupNodes_length (pid : ℕ) (ir : Bool) (k : ℕ) (nodes : List BVHNode) :
    (fixupNodes pid ir k nodes).length = nodes.length := by
  unfold fixupNodes
  split_ifs with h
  · exact List.length_modify _ _ _
  · rfl

theorem fixupNodes_not_right (pid : ℕ) (k : ℕ) (nodes : List BVHNode) :
    fixupNodes pid false k nodes = nodes := by
  unfold fixupNodes
  simp

theorem fixupNodes_sentinel (ir : Bool) (k : ℕ) (nodes : List BVHNode) :
    fixupNodes UINT32_MAX ir k nodes = nodes := by
  unfold fixupNodes
  simp

theorem fixupNodes_right_mid (k : ℕ) (A : List BVHNode) (x : BVHNode)
    (B : List BVHNode) (hA : A.length ≠ UINT32_MAX) :
    fixupNodes A.length true k (A ++ x :: B) = A ++ { x with data0 := k } :: B := by
  unfold fixupNodes
  rw [if_pos (by simp [hA])]
  exact modify_append_mid _ A x B

theorem take_window (A s B : List ℕ) (n : ℕ) (hA : A.length = n) :
    (A ++ s ++ B).take n = A := by
  subst hA
  rw [List.append_assoc, List.take_left]

theorem drop_window (A s B : List ℕ) (n : ℕ) (hA : A.length = n) :
    (A ++ s ++ B).drop n = s ++ B := by
  subst hA
  rw [List.append_assoc, List.drop_left]

theorem take_window2 (A s B : List ℕ) (n : ℕ) (hn : A.length + s.length = n) :
    (A ++ s ++ B).take n = A ++ s := by
  subst hn
  rw [show A.length + s.length = (A ++ s).length from (List.length_append A s).symm,
    List.take_left]

theorem drop_window2 (A s B : List ℕ) (n : ℕ) (hn : A.length + s.length = n) :
    (A ++ s ++ B).drop n = B := by
  subst hn
  rw [show A.length + s.length = (A ++ s).length from (List.length_append A s).symm,
    List.drop_left]

theorem seg_window (A s B : List ℕ) (n m : ℕ) (hA : A.length = n)
    (hs : s.length = m) : ((A ++ s ++ B).drop n).take m = s := by
  rw [drop_window A s B n hA]
  subst hs
  rw [List.take_left]

theorem build_loop_nil (verts : List (Fin 3 → ℚ)) (faces : List Triangle)
    (st : BuildState) : build_loop verts faces [] st = st := by
  simp [build_loop]

theorem build_loop_leaf (verts : List (Fin 3 → ℚ)) (faces : List Triangle)
    (e : BVHBuildEntry) (stack : List BVHBuildEntry) (st : BuildState)
    (h : e.count ≤ 4) :
    build_loop verts faces (e :: stack) st =
      build_loop verts faces stack
        { nodes := fixupNodes e.parent_idx e.is_right st.nodes.length st.nodes ++
            [make_leaf
              (fun a => segMinQ verts faces ((st.indices.drop e.start).take e.count) a)
              (fun a => segMaxQ verts faces ((st.indices.drop e.start).take e.count) a)
              st.face_order.length e.count]
          face_order := st.face_order ++ (st.indices.drop e.start).take e.count
          indices := st.indices } := by
  rw [build_loop.eq_def]
  dsimp only
  rw [dif_pos h]

theorem build_loop_split (verts : List (Fin 3 → ℚ)) (faces : List Triangle)
    (e : BVHBuildEntry) (stack : List BVHBuildEntry) (st : BuildState)
    (h : ¬ e.count ≤ 4) (seg : List ℕ)
    (hseg : seg = (st.indices.drop e.start).take e.count)
    (bmin bmax : Fin 3 → ℚ)
    (hbmin : bmin = fun a => segMinQ verts faces seg a)
    (hbmax : bmax = fun a => segMaxQ verts faces seg a) :
    build_loop verts faces (e :: stack) st =
      build_loop verts faces
        (⟨e.start, e.count / 2, st.nodes.length, false⟩ ::
          ⟨e.start + e.count / 2, e.count - e.count / 2, st.nodes.length, true⟩ :: stack)
        { nodes := fixupNodes e.parent_idx e.is_right st.nodes.length st.nodes ++
            [make_internal bmin bmax 0 (splitAxis bmin bmax)]
          face_order := st.face_order
          indices := st.indices.take e.start ++
            seg.mergeSort (centLe verts faces (splitAxis bmin bmax)) ++
            st.indices.drop (e.start + e.count) } := by
  subst hseg
  subst hbmin
  subst hbmax
  rw [build_loop.eq_def]
  dsimp only
  rw [dif_neg h]

theorem build_loop_append (verts : List (Fin 3 → ℚ)) (faces : List Triangle) :
    ∀ (m : ℕ) (s1 s2 : List BVHBuildEntry) (st : BuildState),
      (s1.map fun e => 3 * e.count - 2).sum + s1.length ≤ m →
      build_loop verts faces (s1 ++ s2) st =
        build_loop verts faces s2 (build_loop verts faces s1 st) := by
  intro m
  induction m with
  | zero =>
    intro s1 s2 st h
    cases s1 with
    | nil => rw [List.nil_append, build_loop_nil]
    | cons e s1 => simp at h
  | succ m ih =>
    intro s1 s2 st h
    cases s1 with
    | nil => rw [List.nil_append, build_loop_nil]
    | cons e s1 =>
      simp only [List.map_cons, List.sum_cons, List.length_cons] at h
      rw [List.cons_append]
      by_cases hc : e.count ≤ 4
      · rw [build_loop_leaf verts faces e (s1 ++ s2) st hc,
          build_loop_leaf verts faces e s1 st hc]
        exact ih s1 s2 _ (by omega)
      · rw [build_loop_split verts faces e (s1 ++ s2) st hc _ rfl _ _ rfl rfl,
          build_loop_split verts faces e s1 st hc _ rfl _ _ rfl rfl]
        rw [show ((⟨e.start, e.count / 2, st.nodes.length, false⟩ : BVHBuildEntry) ::
            (⟨e.start + e.count / 2, e.count - e.count / 2, st.nodes.length, true⟩ :
              BVHBuildEntry) :: (s1 ++ s2)) =
          ((⟨e.start, e.count / 2, st.nodes.length, false⟩ : BVHBuildEntry) ::
            (⟨e.start + e.count / 2, e.count - e.count / 2, st.nodes.length, true⟩ :
              BVHBuildEntry) :: s1) ++ s2 from rfl]
        exact ih (_ :: _ :: s1) s2 _ (by
          simp only [List.map_cons, List.sum_cons, List.length_cons]
          omega)

theorem getD_mem_of_lt {l : List ℕ} {i : ℕ} (h : i < l.length) (d : ℕ) :
    l.getD i d ∈ l := by
  rw [List.getD_eq_get? l i d, List.get?_eq_get h]
  exact List.get_mem _ _ _

theorem BlockSound_mono (verts : List (Fin 3 → ℚ)) (faces : List Triangle)
    (base : ℕ) (new : List BVHNode) (fo ext : List ℕ)
    (h : BlockSound verts faces base new fo) :
    BlockSound verts faces base new (fo ++ ext) := by
  intro k nd hk
  obtain ⟨hleaf, hint⟩ := h k nd hk
  refine ⟨fun hl => ?_, hint⟩
  obtain ⟨h1, h2, h3⟩ := hleaf hl
  refine ⟨h1, le_trans h2 (by rw [List.length_append]; omega), ?_⟩
  intro p hp1 hp2
  rw [List.getD_append _ _ _ p (by omega)]
  exact h3 p hp1 hp2

theorem leafRangesOf_cons (nd : BVHNode) (l : List BVHNode) :
    leafRangesOf (nd :: l) =
      (if nd.flags = LEAF_FLAG then List.range' nd.data0 nd.data1 else []) ++
        leafRangesOf l := by
  simp [leafRangesOf]

theorem leafRangesOf_append (l1 l2 : List BVHNode) :
    leafRangesOf (l1 ++ l2) = leafRangesOf l1 ++ leafRangesOf l2 := by
  simp [leafRangesOf]

theorem indices_decompose (l : List ℕ) (s c : ℕ) :
    l.take s ++ (l.drop s).take c ++ l.drop (s + c) = l := by
  rw [List.append_assoc,
    show l.drop (s + c) = (l.drop s).drop c from (List.drop_drop c s l).symm,
    List.take_append_drop, List.take_append_drop]

theorem blockSound_combine (verts : List (Fin 3 → ℚ)) (faces : List Triangle)
    (base : ℕ) (x : BVHNode) (L R : List BVHNode) (fo : List ℕ)
    (hxflag : x.flags = 0) (hxax : x.data1 < 3)
    (hxd0 : x.data0 = base + 1 + L.length)
    (hL1 : 1 ≤ L.length) (hR1 : 1 ≤ R.length)
    (hGL : BlockSound verts faces (base + 1) L fo)
    (hGR : BlockSound verts faces (base + 1 + L.length) R fo)
    (hrootL : ∀ cnd, L.get? 0 = some cnd → boxLE cnd x)
    (hrootR : ∀ cnd, R.get? 0 = some cnd → boxLE cnd x) :
    BlockSound verts faces base (x :: (L ++ R)) fo := by
  have hlen : (x :: (L ++ R)).length = 1 + L.length + R.length := by
    rw [List.length_cons, List.length_append]
    omega
  have hgetL : ∀ i, i < L.length → (x :: (L ++ R)).get? (i + 1) = L.get? i := by
    intro i hi
    rw [List.get?_cons_succ]
    exact List.get?_append hi
  have hgetR : ∀ i, (x :: (L ++ R)).get? (L.length + i + 1) = R.get? i := by
    intro i
    rw [List.get?_cons_succ, List.get?_append_right (by omega)]
    congr 1
    omega
  intro k nd hk
  cases k with
  | zero =>
    rw [List.get?_cons_zero, Option.some.injEq] at hk
    subst hk
    constructor
    · intro hl
      rw [hxflag] at hl
      exact absurd hl (by decide)
    · intro _
      refine ⟨hxflag, hxax, ?_, ?_, ?_, ?_, ?_⟩
      · rw [hlen]
        omega
      · omega
      · rw [hlen]
        omega
      · intro cnd hcnd
        rw [hgetL 0 (by omega)] at hcnd
        exact hrootL cnd hcnd
      · intro cnd hcnd
        rw [show x.data0 - base = L.length + 0 + 1 from by omega, hgetR 0] at hcnd
        exact hrootR cnd hcnd
  | succ j =>
    rw [List.get?_cons_succ] at hk
    by_cases hj : j < L.length
    · rw [List.get?_append hj] at hk
      obtain ⟨hleaf, hint⟩ := hGL j nd hk
      refine ⟨hleaf, fun hni => ?_⟩
      obtain ⟨f0, ax1, hk1, hgt, hlt, hcl, hcr⟩ := hint hni
      refine ⟨f0, ax1, by rw [hlen]; omega, by omega, by rw [hlen]; omega, ?_, ?_⟩
      · intro cnd hcnd
        rw [show j + 1 + 1 = (j + 1) + 1 from rfl, hgetL (j + 1) hk1] at hcnd
        exact hcl cnd hcnd
      · intro cnd hcnd
        rw [show nd.data0 - base = (nd.data0 - (base + 1)) + 1 from by omega,
          hgetL _ (by omega)] at hcnd
        exact hcr cnd hcnd
    · push_neg at hj
      rw [List.get?_append_right hj] at hk
      obtain ⟨hleaf, hint⟩ := hGR (j - L.length) nd hk
      refine ⟨hleaf, fun hni => ?_⟩
      obtain ⟨f0, ax1, hk1, hgt, hlt, hcl, hcr⟩ := hint hni
      refine ⟨f0, ax1, by rw [hlen]; omega, by omega, by rw [hlen]; omega, ?_, ?_⟩
      · intro cnd hcnd
        rw [show j + 1 + 1 = L.length + ((j - L.length) + 1) + 1 from by omega,
          hgetR ((j - L.length) + 1)] at hcnd
        exact hcl cnd hcnd
      · intro cnd hcnd
        rw [show nd.data0 - base = L.length + (nd.data0 - (base + 1 + L.length)) + 1
          from by omega, hgetR _] at hcnd
        exact hcr cnd hcnd

theorem build_loop_single (verts : List (Fin 3 → ℚ)) (faces : List Triangle) :
    ∀ (cnt : ℕ) (e : BVHBuildEntry) (st : BuildState), e.count = cnt →
      1 ≤ e.count → e.start + e.count ≤ st.indices.length →
      st.nodes.length + 2 * e.count < UINT32_MAX →
      ∃ (new : List BVHNode) (fl seg2 : List ℕ),
        (build_loop verts faces [e] st).nodes =
          fixupNodes e.parent_idx e.is_right st.nodes.length st.nodes ++ new ∧
        1 ≤ new.length ∧
        new.length ≤ 2 * e.count - 1 ∧
        (∃ root, new.get? 0 = some root ∧
          ∀ a, root.bbox_min a =
              segMinQ verts faces ((st.indices.drop e.start).take e.count) a ∧
            root.bbox_max a =
              segMaxQ verts faces ((st.indices.drop e.start).take e.count) a) ∧
        (build_loop verts faces [e] st).face_order = st.face_order ++ fl ∧
        fl.Perm ((st.indices.drop e.start).take e.count) ∧
        (build_loop verts faces [e] st).indices =
          st.indices.take e.start ++ seg2 ++ st.indices.drop (e.start + e.count) ∧
        seg2.Perm ((st.indices.drop e.start).take e.count) ∧
        (build_loop verts faces [e] st).indices.length = st.indices.length ∧
        leafRangesOf new = List.range' st.face_order.length e.count ∧
        BlockSound verts faces st.nodes.length new
          (build_loop verts faces [e] st).face_order := by
  intro cnt
  induction cnt using Nat.strong_induction_on with
  | _ cnt ih =>
  intro e st hcnt h1 h2 hsz
  subst hcnt
  have hseglen : ((st.indices.drop e.start).take e.count).length = e.count := by
    rw [List.length_take, List.length_drop]
    omega
  by_cases hc : e.count ≤ 4
  · -- leaf case
    have hstep := build_loop_leaf verts faces e [] st hc
    rw [build_loop_nil] at hstep
    refine ⟨[make_leaf
        (fun a => segMinQ verts faces ((st.indices.drop e.start).take e.count) a)
        (fun a => segMaxQ verts faces ((st.indices.drop e.start).take e.count) a)
        st.face_order.length e.count],
      (st.indices.drop e.start).take e.count,
      (st.indices.drop e.start).take e.count,
      ?_, ?_, ?_, ?_, ?_, ?_, ?_, ?_, ?_, ?_, ?_⟩
    · rw [hstep]
    · simp
    · simp only [List.length_singleton]
      omega
    · exact ⟨_, rfl, fun a => ⟨rfl, rfl⟩⟩
    · rw [hstep]
    · exact List.Perm.refl _
    · rw [hstep]
      exact (indices_decompose st.indices e.start e.count).symm
    · exact List.Perm.refl _
    · rw [hstep]
    · simp [leafRangesOf, make_leaf]
    · rw [hstep]
      intro k nd hk
      cases k with
      | zero =>
        rw [List.get?_cons_zero, Option.some.injEq] at hk
        subst hk
        refine ⟨fun _ => ⟨hc, ?_, ?_⟩, fun hni => absurd rfl hni⟩
        · show st.face_order.length + e.count ≤ _
          rw [List.length_append, hseglen]
        · intro p hp1 hp2
          have hp1' : st.face_order.length ≤ p := hp1
          have hp2' : p < st.face_order.length + e.count := hp2
          rw [List.getD_append_right _ _ _ p hp1']
          exact tri_in_seg_box verts faces
            (getD_mem_of_lt (by rw [hseglen]; omega) 0) (fun a => ⟨rfl, rfl⟩)
      | succ j =>
        rw [List.get?_cons_succ] at hk
        simp at hk
  · -- split case
    have h5 : 5 ≤ e.count := by omega
    obtain ⟨seg, hseg⟩ : ∃ s, s = (st.indices.drop e.start).take e.count := ⟨_, rfl⟩
    obtain ⟨bmin, hbmin⟩ : ∃ b : Fin 3 → ℚ, b = fun a => segMinQ verts faces seg a :=
      ⟨_, rfl⟩
    obtain ⟨bmax, hbmax⟩ : ∃ b : Fin 3 → ℚ, b = fun a => segMaxQ verts faces seg a :=
      ⟨_, rfl⟩
    have hseglen' : seg.length = e.count := by rw [hseg]; exact hseglen
    obtain ⟨sorted, hsorted⟩ :
        ∃ s, s = seg.mergeSort (centLe verts faces (splitAxis bmin bmax)) := ⟨_, rfl⟩
    have hsortedperm : sorted.Perm seg := by
      rw [hsorted]
      exact List.mergeSort_perm _ _
    have hsortedlen : sorted.length = e.count := by
      rw [hsortedperm.length_eq, hseglen']
    obtain ⟨mid, hmid⟩ : ∃ m, m = e.count / 2 := ⟨_, rfl⟩
    have hmid1 : 2 ≤ mid := by rw [hmid]; omega
    have hmid2 : mid + 1 < e.count := by rw [hmid]; omega
    have hstep := build_loop_split verts faces e [] st hc seg hseg bmin bmax hbmin hbmax
    rw [← hsorted, ← hmid] at hstep
    obtain ⟨st1, hst1⟩ : ∃ s : BuildState, s =
        { nodes := fixupNodes e.parent_idx e.is_right st.nodes.length st.nodes ++
            [make_internal bmin bmax 0 (splitAxis bmin bmax)]
          face_order := st.face_order
          indices := st.indices.take e.start ++ sorted ++
            st.indices.drop (e.start + e.count) } := ⟨_, rfl⟩
    rw [← hst1] at hstep
    have happ := build_loop_append verts faces ((3 * mid - 2) + 1)
      [⟨e.start, mid, st.nodes.length, false⟩]
      [⟨e.start + mid, e.count - mid, st.nodes.length, true⟩] st1 (by simp)
    rw [show (([⟨e.start, mid, st.nodes.length, false⟩] ++
        [⟨e.start + mid, e.count - mid, st.nodes.length, true⟩]) :
          List BVHBuildEntry) =
      [⟨e.start, mid, st.nodes.length, false⟩,
        ⟨e.start + mid, e.count - mid, st.nodes.length, true⟩] from rfl] at happ
    rw [happ] at hstep
    have htakelen : (st.indices.take e.start).length = e.start := by
      rw [List.length_take]
      omega
    have hst1nodes : st1.nodes.length = st.nodes.length + 1 := by
      rw [hst1]
      show (fixupNodes e.parent_idx e.is_right st.nodes.length st.nodes ++ _).length = _
      rw [List.length_append, fixupNodes_length]
      rfl
    have hst1fo : st1.face_order = st.face_order := by rw [hst1]
    have hst1ind : st1.indices = st.indices.take e.start ++ sorted ++
        st.indices.drop (e.start + e.count) := by rw [hst1]
    have hst1len : st1.indices.length = st.indices.length := by
      rw [hst1ind, List.length_append, List.length_append, htakelen, hsortedlen,
        List.length_drop]
      omega
    have hsegL : (st1.indices.drop e.start).take mid = sorted.take mid := by
      rw [hst1ind, drop_window _ _ _ e.start htakelen,
        List.take_append_of_le_length (by rw [hsortedlen]; omega)]
    -- left child
    have hL := ih mid (by omega) ⟨e.start, mid, st.nodes.length, false⟩ st1 rfl
      (by show 1 ≤ mid; omega)
      (by show e.start + mid ≤ st1.indices.length
          rw [hst1len]
          omega)
      (by show st1.nodes.length + 2 * mid < UINT32_MAX
          rw [hst1nodes]
          omega)
    obtain ⟨Lnew, flL, seg2L, hAL, hBL, hHL, ⟨rootL, hrootL, hboxL⟩, hDL, hDLp,
      hEL, hELp, hELlen, hFL, hGL⟩ := hL
    dsimp only at hAL hHL hDL hDLp hEL hELp hELlen hFL hGL hboxL
    obtain ⟨st2, hst2⟩ : ∃ s, s = build_loop verts faces
        [⟨e.start, mid, st.nodes.length, false⟩] st1 := ⟨_, rfl⟩
    rw [← hst2] at hstep hAL hDL hEL hELlen hGL
    rw [hsegL] at hDLp hELp hboxL
    have hst2nodes : st2.nodes = st1.nodes ++ Lnew := by
      rw [hAL]
      congr 1
      exact fixupNodes_not_right _ _ _
    have hI1 : st1.indices.take e.start = st.indices.take e.start := by
      rw [hst1ind, take_window _ _ _ e.start htakelen]
    have hI2 : st1.indices.drop (e.start + mid) =
        sorted.drop mid ++ st.indices.drop (e.start + e.count) := by
      rw [hst1ind, List.append_assoc,
        show e.start + mid = (st.indices.take e.start).length + mid from by
          rw [htakelen],
        ← List.drop_drop, List.drop_left,
        List.drop_append_of_le_length (by rw [hsortedlen]; omega)]
    rw [hI1, hI2] at hEL
    have hflLlen : flL.length = mid := by
      rw [hDLp.length_eq, List.length_take, hsortedlen]
      omega
    have hseg2Llen : seg2L.length = mid := by
      rw [hELp.length_eq, List.length_take, hsortedlen]
      omega
    have hst2len : st2.indices.length = st.indices.length := by
      rw [hELlen, hst1len]
    have hst2nodeslen : st2.nodes.length = st.nodes.length + 1 + Lnew.length := by
      rw [hst2nodes, List.length_append, hst1nodes]
    have hsegR : (st2.indices.drop (e.start + mid)).take (e.count - mid) =
        sorted.drop mid := by
      rw [hEL, drop_window2 _ _ _ _ (by rw [htakelen, hseg2Llen]),
        List.take_append_of_le_length (by rw [List.length_drop, hsortedlen]),
        show e.count - mid = (sorted.drop mid).length from by
          rw [List.length_drop, hsortedlen],
        List.take_length]
    -- right child
    have hR := ih (e.count - mid) (by omega)
      ⟨e.start + mid, e.count - mid, st.nodes.length, true⟩ st2 rfl
      (by show 1 ≤ e.count - mid; omega)
      (by show e.start + mid + (e.count - mid) ≤ st2.indices.length
          rw [hst2len]
          omega)
      (by show st2.nodes.length + 2 * (e.count - mid) < UINT32_MAX
          rw [hst2nodeslen]
          omega)
    obtain ⟨Rnew, flR, seg2R, hAR, hBR, hHR, ⟨rootR, hrootR, hboxR⟩, hDR, hDRp,
      hER, hERp, hERlen, hFR, hGR⟩ := hR
    dsimp only at hAR hHR hDR hDRp hER hERp hERlen hFR hGR hboxR
    rw [hsegR] at hDRp hERp hboxR
    -- node algebra for the right fixup
    have hfixlen : (fixupNodes e.parent_idx e.is_right st.nodes.length
        st.nodes).length = st.nodes.length := fixupNodes_length _ _ _ _
    have hst2nodes' : st2.nodes =
        fixupNodes e.parent_idx e.is_right st.nodes.length st.nodes ++
          (make_internal bmin bmax 0 (splitAxis bmin bmax) :: Lnew) := by
      rw [hst2nodes, hst1]
      show (fixupNodes e.parent_idx e.is_right st.nodes.length st.nodes ++
        [make_internal bmin bmax 0 (splitAxis bmin bmax)]) ++ Lnew = _
      rw [List.append_assoc]
      rfl
    have hfix2 : fixupNodes st.nodes.length true st2.nodes.length st2.nodes =
        fixupNodes e.parent_idx e.is_right st.nodes.length st.nodes ++
          (make_internal bmin bmax st2.nodes.length (splitAxis bmin bmax) :: Lnew) := by
      obtain ⟨k2, hk2⟩ : ∃ k, k = st2.nodes.length := ⟨_, rfl⟩
      rw [← hk2, hst2nodes']
      have := fixupNodes_right_mid k2
        (fixupNodes e.parent_idx e.is_right st.nodes.length st.nodes)
        (make_internal bmin bmax 0 (splitAxis bmin bmax)) Lnew
        (by rw [hfixlen]; unfold UINT32_MAX at hsz ⊢; omega)
      rw [hfixlen] at this
      exact this
    refine ⟨make_internal bmin bmax st2.nodes.length (splitAxis bmin bmax) ::
        (Lnew ++ Rnew), flL ++ flR, seg2L ++ seg2R,
      ?_, ?_, ?_, ?_, ?_, ?_, ?_, ?_, ?_, ?_, ?_⟩
    · rw [hstep, hAR, hfix2, List.append_assoc]
      rfl
    · simp
    · simp only [List.length_cons, List.length_append]
      omega
    · refine ⟨_, rfl, fun a => ⟨?_, ?_⟩⟩
      · show bmin a = _
        rw [hbmin, hseg]
      · show bmax a = _
        rw [hbmax, hseg]
    · rw [hstep, hDR, hDL, hst1fo, List.append_assoc]
    · refine hseg ▸ ((hDLp.append hDRp).trans ?_)
      rw [List.take_append_drop]
      exact hsortedperm
    · rw [hstep, hER, hEL,
        take_window2 _ _ _ _ (by rw [htakelen, hseg2Llen]),
        show e.start + mid + (e.count - mid) = e.start + e.count from by omega,
        ← List.append_assoc,
        drop_window2 _ _ _ _ (by
          rw [List.length_append, htakelen, hseg2Llen, List.length_drop, hsortedlen]
          omega)]
      simp [List.append_assoc]
    · refine hseg ▸ ((hELp.append hERp).trans ?_)
      rw [List.take_append_drop]
      exact hsortedperm
    · rw [hstep, hERlen, hst2len]
    · have hnotleaf : ¬ (make_internal bmin bmax st2.nodes.length
          (splitAxis bmin bmax)).flags = LEAF_FLAG := by
        show ¬ (0 : ℕ) = LEAF_FLAG
        decide
      rw [leafRangesOf_cons, if_neg hnotleaf, leafRangesOf_append, hFL, hFR,
        hst1fo]
      have hfo2len : st2.face_order.length = st.face_order.length + mid := by
        rw [hDL, List.length_append, hst1fo, hflLlen]
      rw [hfo2len, List.nil_append]
      have hrange := List.range'_append st.face_order.length mid (e.count - mid) 1
      rw [one_mul] at hrange
      rw [show e.count - mid + mid = e.count from by omega] at hrange
      exact hrange
    · rw [hstep, hDR]
      refine blockSound_combine verts faces st.nodes.length _ Lnew Rnew _
        rfl (Fin.is_lt _) ?_ hBL hBR ?_ ?_ ?_ ?_
      · show st2.nodes.length = _
        rw [hst2nodeslen]
      · rw [show st.nodes.length + 1 = st1.nodes.length from hst1nodes.symm]
        exact BlockSound_mono verts faces _ _ _ _ hGL
      · rw [show st.nodes.length + 1 + Lnew.length = st2.nodes.length from
          hst2nodeslen.symm]
        rw [hDR] at hGR
        exact hGR
      · intro cnd hcnd
        rw [hrootL, Option.some.injEq] at hcnd
        subst hcnd
        refine @boxLE_of_sub verts faces (sorted.take mid) seg ?_ rootL
          (make_internal bmin bmax st2.nodes.length (splitAxis bmin bmax)) hboxL
          (fun a => ⟨?_, ?_⟩)
        · intro x hx
          exact (hsortedperm.mem_iff).mp
            (List.Sublist.mem hx (List.take_sublist mid sorted))
        · show bmin a = segMinQ verts faces seg a
          rw [hbmin]
        · show bmax a = segMaxQ verts faces seg a
          rw [hbmax]
      · intro cnd hcnd
        rw [hrootR, Option.some.injEq] at hcnd
        subst hcnd
        refine @boxLE_of_sub verts faces (sorted.drop mid) seg ?_ rootR
          (make_internal bmin bmax st2.nodes.length (splitAxis bmin bmax)) hboxR
          (fun a => ⟨?_, ?_⟩)
        · intro x hx
          exact (hsortedperm.mem_iff).mp
            (List.Sublist.mem hx (List.drop_sublist mid sorted))
        · show bmin a = segMinQ verts faces seg a
          rw [hbmin]
        · show bmax a = segMaxQ verts faces seg a
          rw [hbmax]

theorem blockSound_reach (verts : List (Fin 3 → ℚ)) (faces : List Triangle)
    (nodes : List BVHNode) (fo : List ℕ)
    (hbs : BlockSound verts faces 0 nodes fo) :
    ∀ (fuel k : ℕ) (nd : BVHNode), nodes.get? k = some nd →
      ∀ p ∈ reachPositions nodes fuel k,
        triInBox verts (faceAt faces (fo.getD p 0)) nd := by
  intro fuel
  induction fuel with
  | zero =>
    intro k nd h p hp
    simp [reachPositions] at hp
  | succ fuel ihf =>
    intro k nd h p hp
    rw [reachPositions, h] at hp
    dsimp only at hp
    by_cases hl : nd.flags = LEAF_FLAG
    · rw [if_pos hl] at hp
      obtain ⟨hle, hlen, hcont⟩ := (hbs k nd h).1 hl
      rw [List.mem_range'_1] at hp
      exact hcont p hp.1 hp.2
    · rw [if_neg hl] at hp
      obtain ⟨f0, hax, hk1, hgt, hlt, hcl, hcr⟩ := (hbs k nd h).2 hl
      rcases List.mem_append.mp hp with hp1 | hp2
      · have hcnd := List.get?_eq_get hk1
        exact triInBox_mono (hcl _ hcnd) (ihf (k + 1) _ hcnd p hp1)
      · have hd0len : nd.data0 < nodes.length := by omega
        have hcnd := List.get?_eq_get hd0len
        refine triInBox_mono (hcr _ ?_) (ihf nd.data0 _ hcnd p hp2)
        rw [show nd.data0 - 0 = nd.data0 from by omega]
        exact hcnd

/-- C6: for every per-cell BVH built from a non-empty triangle set (whose
size fits the `uint32` node indices), every node is either a leaf with
`flags = 0xFFFF` holding at most 4 triangles or an interior node with a
split axis in `{0, 1, 2}`; the leaf face ranges cover the reordered face
array exactly (so every reordered face position is referenced by exactly
one leaf, and the face reorder map is a permutation of the original face
indices); and every node's bounding box contains all three vertices of
every triangle reachable from that node. -/
theorem C6_bvh_invariants (verts : List (Fin 3 → ℚ)) (faces : List Triangle)
    (hne : faces ≠ []) (hsize : 2 * faces.length < UINT32_MAX) :
    (∀ k nd, (build_bvh verts faces).1.get? k = some nd →
      (nd.flags = LEAF_FLAG ∧ nd.data1 ≤ 4) ∨ (nd.flags = 0 ∧ nd.data1 < 3)) ∧
    leafRangesOf (build_bvh verts faces).1 = List.range faces.length ∧
    (∀ t, t < faces.length → (leafRangesOf (build_bvh verts faces).1).count t = 1) ∧
    (build_bvh verts faces).2.Perm (List.range faces.length) ∧
    (∀ fuel k nd, (build_bvh verts faces).1.get? k = some nd →
      ∀ p ∈ reachPositions (build_bvh verts faces).1 fuel k,
        triInBox verts (faceAt faces ((build_bvh verts faces).2.getD p 0)) nd) := by
  have hroot := build_loop_single verts faces faces.length
    ⟨0, faces.length, UINT32_MAX, false⟩
    ⟨[], [], List.range faces.length⟩ rfl
    (by show 1 ≤ faces.length
        have := List.length_pos.mpr hne
        omega)
    (by show 0 + faces.length ≤ (List.range faces.length).length
        rw [List.length_range]
        omega)
    (by show ([] : List BVHNode).length + 2 * faces.length < UINT32_MAX
        rw [List.length_nil]
        omega)
  obtain ⟨new, fl, seg2, hA, hB, hH, hC, hD, hDp, hE, hEp, hElen, hF, hG⟩ := hroot
  dsimp only at hA hD hDp hE hEp hElen hF hG
  have hbvh : build_bvh verts faces =
      ((build_loop verts faces [⟨0, faces.length, UINT32_MAX, false⟩]
        ⟨[], [], List.range faces.length⟩).nodes,
       (build_loop verts faces [⟨0, faces.length, UINT32_MAX, false⟩]
        ⟨[], [], List.range faces.length⟩).face_order) := by
    rw [build_bvh, if_neg (by simpa [List.isEmpty_iff] using hne)]
  have h1 : (build_bvh verts faces).1 = new := by
    rw [hbvh]
    rw [fixupNodes_sentinel, List.nil_append] at hA
    exact hA
  have hD' : (build_loop verts faces [⟨0, faces.length, UINT32_MAX, false⟩]
      ⟨[], [], List.range faces.length⟩).face_order = fl := by
    rw [hD]
    exact List.nil_append fl
  have h2 : (build_bvh verts faces).2 = fl := by
    rw [hbvh]
    exact hD'
  rw [List.drop_zero, List.take_of_length_le (by rw [List.length_range])] at hDp
  rw [List.length_nil] at hF hG
  rw [hD'] at hG
  refine ⟨?_, ?_, ?_, ?_, ?_⟩
  · intro k nd hk
    rw [h1] at hk
    obtain ⟨hleaf, hint⟩ := hG k nd hk
    by_cases hl : nd.flags = LEAF_FLAG
    · exact Or.inl ⟨hl, (hleaf hl).1⟩
    · exact Or.inr ⟨(hint hl).1, (hint hl).2.1⟩
  · rw [h1, hF]
    exact (List.range_eq_range' _).symm
  · intro t ht
    rw [h1, hF, ← List.range_eq_range']
    exact List.count_eq_one_of_mem (List.nodup_range _) (List.mem_range.mpr ht)
  · rw [h2]
    exact hDp
  · rw [h1, h2]
    exact blockSound_reach verts faces new fl hG

/-- Witness for C6 on a single-triangle mesh. -/
theorem C6_bvh_invariants_witness :
    (wFaces ≠ [] ∧ 2 * wFaces.length < UINT32_MAX) ∧
    ((∀ k nd, (build_bvh wVerts wFaces).1.get? k = some nd →
      (nd.flags = LEAF_FLAG ∧ nd.data1 ≤ 4) ∨ (nd.flags = 0 ∧ nd.data1 < 3)) ∧
    leafRangesOf (build_bvh wVerts wFaces).1 = List.range wFaces.length ∧
    (∀ t, t < wFaces.length →
      (leafRangesOf (build_bvh wVerts wFaces).1).count t = 1) ∧
    (build_bvh wVerts wFaces).2.Perm (List.range wFaces.length) ∧
    (∀ fuel k nd, (build_bvh wVerts wFaces).1.get? k = some nd →
      ∀ p ∈ reachPositions (build_bvh wVerts wFaces).1 fuel k,
        triInBox wVerts (faceAt wFaces ((build_bvh wVerts wFaces).2.getD p 0)) nd)) :=
  ⟨⟨by decide, by decide⟩, C6_bvh_invariants wVerts wFaces (by decide) (by decide)⟩

end Ply2Lcc
